import Mathlib

/-!
Verification of the PacketRouteSim pathfinding and animation engine
(client/src/pages/simulator.tsx) against its natural-language specification.

The TypeScript source is shallowly embedded as follows:
* JavaScript numbers used as edge costs are modelled by Int; numbers used as
  2D coordinates and animation progress values are modelled by Rat.
* The distance value Infinity is modelled by the top element of WithTop Int;
  Infinity + c = top matches JavaScript arithmetic on Infinity with finite c.
* A JavaScript Map whose keys are exactly the node ids (written once during
  initialisation and updated only at node ids thereafter) is modelled by a
  total function; reads the program performs are all at initialised keys.
  The map named previous is read at possibly-missing keys during path
  reconstruction, so it is modelled with an explicit three-valued read:
  none models the JavaScript value undefined (key absent), some none models
  the stored value null, some (some p) models a stored node id p.
* A JavaScript Set of strings (insertion ordered, duplicate free) is
  modelled by a duplicate-free List String built by setAdd.
* The while loop of the main Dijkstra phase removes one element from the
  unvisited set in every iteration that does not break, so it is embedded
  structurally with a fuel argument that starts at the size of the
  unvisited set and decreases in lockstep with it.
* The path-reconstruction while loop has no syntactic bound; it is embedded
  with an explicit fuel argument, and returning none models exhausting any
  finite fuel, i.e. non-termination of the source loop.
-/

/- Batteries marks the rational operations irreducible, which blocks the
evaluation of closed rational arithmetic inside decide; restore the default
reducibility for this file. -/
attribute [local semireducible] Rat.add Rat.mul Rat.sub Rat.inv Rat.ofScientific

/-! ## Data model (shared/schema.ts) -/

structure NetworkNode where
  id : String
  label : String
  x : Rat
  y : Rat
  type : String
  deriving Repr, DecidableEq

structure NetworkEdge where
  «from» : String
  «to» : String
  cost : Int
  deriving Repr, DecidableEq

structure Network where
  nodes : List NetworkNode
  edges : List NetworkEdge
  deriving Repr, DecidableEq

structure PathSegment where
  «from» : NetworkNode
  «to» : NetworkNode
  edge : NetworkEdge
  deriving Repr, DecidableEq

/-! ## Dijkstra embedding (simulator.tsx, lines 14-95) -/

/-- List of node ids of a network, in node order. -/
def Network.nodeIds (net : Network) : List String :=
  net.nodes.map NetworkNode.id

/-- JavaScript Set.add: append if not already present (insertion order kept). -/
def setAdd (s : List String) (x : String) : List String :=
  if x ∈ s then s else s ++ [x]

/-- The unvisited set after the initialisation forEach over network.nodes. -/
def initUnvisited (net : Network) : List String :=
  net.nodes.foldl (fun s n => setAdd s n.id) []

/-- Initial distances map: 0 for the source id, Infinity for every other node
id. Ids outside the map are never read by the main loop; the default value
top is arbitrary there. -/
def initDist (net : Network) (sourceId : String) : String → WithTop Int :=
  fun id => if id ∈ net.nodeIds then (if id = sourceId then 0 else ⊤) else ⊤

/-- Initial previous map: every node id stores null (some none); ids outside
the map read as undefined (none). -/
def initPrev (net : Network) : String → Option (Option String) :=
  fun id => if id ∈ net.nodeIds then some none else none

/-- Pointwise update of a map modelled as a function. -/
def updMap {α : Type} (f : String → α) (k : String) (v : α) : String → α :=
  fun x => if x = k then v else f x

/-- One step of the minimum scan: the candidate is replaced only when the
distance is strictly smaller, so ties keep the earliest inserted node. -/
def scanStep (dist : String → WithTop Int)
    (acc : Option String × WithTop Int) (nodeId : String) :
    Option String × WithTop Int :=
  if dist nodeId < acc.2 then (some nodeId, dist nodeId) else acc

/-- The linear scan of the unvisited set for a node of minimal distance
(simulator.tsx lines 33-42). -/
def scanMin (unvisited : List String) (dist : String → WithTop Int) :
    Option String × WithTop Int :=
  unvisited.foldl (scanStep dist) (none, ⊤)

/-- State threaded through edge relaxation: the distances and previous maps. -/
abbrev DijkState := (String → WithTop Int) × (String → Option (Option String))

/-- One direction of the relaxation body (simulator.tsx lines 52-58 and
62-68, which are textually identical up to the choice of neighbour): if the
neighbour is unvisited and the candidate distance is strictly smaller, both
maps are updated. -/
def relaxDir (c : String) (unvisited : List String) (neighbor : String)
    (cost : Int) (dp : DijkState) : DijkState :=
  if neighbor ∈ unvisited then
    if dp.1 c + (cost : WithTop Int) < dp.1 neighbor then
      (updMap dp.1 neighbor (dp.1 c + (cost : WithTop Int)),
        updMap dp.2 neighbor (some (some c)))
    else dp
  else dp

/-- Relaxation of one edge from the current node (simulator.tsx lines 50-71):
both directions are tried in sequence against the unvisited set. -/
def relaxStep (c : String) (unvisited : List String) (dp : DijkState)
    (e : NetworkEdge) : DijkState :=
  let dp1 := if e.«from» = c then relaxDir c unvisited e.«to» e.cost dp else dp
  if e.«to» = c then relaxDir c unvisited e.«from» e.cost dp1 else dp1

/-- The forEach over all edges relaxing the neighbours of the current node. -/
def relaxAll (edges : List NetworkEdge) (c : String) (unvisited : List String)
    (dp : DijkState) : DijkState :=
  edges.foldl (relaxStep c unvisited) dp

/-- Main Dijkstra loop (simulator.tsx lines 31-72). The JavaScript condition
(!currentNode || minDistance === Infinity) is true for null and also for the
empty string, which is falsy; both break the loop. The fuel argument starts
at the unvisited size and decreases together with it, so it never runs out
before the while condition (unvisited.size > 0) goes false. -/
def dijkstraLoop (net : Network) (destId : String) :
    Nat → List String → DijkState → DijkState
  | 0, _, dp => dp
  | fuel + 1, unvisited, dp =>
    if unvisited.isEmpty then dp
    else
      match scanMin unvisited dp.1 with
      | (none, _) => dp
      | (some currentNode, minDistance) =>
        if currentNode = "" then dp
        else if minDistance = ⊤ then dp
        else if currentNode = destId then dp
        else
          let unvisited' := unvisited.erase currentNode
          let dp' := relaxAll net.edges currentNode unvisited' dp
          dijkstraLoop net destId fuel unvisited' dp'

/-- Direction-agnostic first matching edge (simulator.tsx lines 80-84). -/
def findEdgeBetween (edges : List NetworkEdge) (prev current : String) :
    Option NetworkEdge :=
  edges.find? (fun e =>
    (e.«from» == prev && e.«to» == current) || (e.«to» == prev && e.«from» == current))

/-- First node carrying a given id (simulator.tsx lines 87-88). The source
applies a TypeScript non-null assertion to the lookup result; the default
node below is never used on any execution that reaches it, because ids on
the previous-chain always name existing nodes. -/
def findNodeById (nodes : List NetworkNode) (id : String) : NetworkNode :=
  (nodes.find? (fun n => n.id == id)).getD ⟨"", "", 0, 0, ""⟩

/-- Path reconstruction loop (simulator.tsx lines 74-92). The loop runs while
previous.get(current) !== null; a missing key reads as undefined, which is
not null, so the loop keeps going with current = undefined (modelled by
none). Fuel exhaustion (result none) models non-termination. -/
def reconstruct (net : Network) (prev : String → Option (Option String)) :
    Nat → Option String → List PathSegment → Option (List PathSegment)
  | 0, _, _ => none
  | fuel + 1, none, acc =>
    -- previous.get(undefined) is undefined, which is !== null: loop again;
    -- no edge matches an undefined endpoint, and current stays undefined.
    reconstruct net prev fuel none acc
  | fuel + 1, some current, acc =>
    match prev current with
    | some none => some acc
    | none => reconstruct net prev fuel none acc
    | some (some p) =>
      match findEdgeBetween net.edges p current with
      | some edge =>
        let fromNode := findNodeById net.nodes p
        let toNode := findNodeById net.nodes current
        reconstruct net prev fuel (some p) (⟨fromNode, toNode, edge⟩ :: acc)
      | none => reconstruct net prev fuel (some p) acc

/-- The dijkstra function with explicit reconstruction fuel. -/
def dijkstraWithFuel (net : Network) (sourceId destId : String) (fuel : Nat) :
    Option (List PathSegment) :=
  let unvisited := initUnvisited net
  let dp := dijkstraLoop net destId unvisited.length unvisited
    (initDist net sourceId, initPrev net)
  reconstruct net dp.2 fuel (some destId) []

/-- dijkstra (simulator.tsx lines 14-95). A previous-chain that terminates
visits pairwise distinct node ids, so nodes.length + 1 fuel is enough for
every terminating run of the reconstruction loop. -/
def dijkstra (net : Network) (sourceId destId : String) :
    Option (List PathSegment) :=
  dijkstraWithFuel net sourceId destId (net.nodes.length + 1)

/-- Total cost of a segment list: the sum of the carried edge costs
(simulator.tsx line 411). -/
def segsCost (segs : List PathSegment) : Int :=
  segs.foldl (fun sum seg => sum + seg.edge.cost) 0

/-! ## Default network (simulator.tsx lines 178-199) -/

def getDefaultNetwork : Network :=
  { nodes :=
      [ ⟨"A", "A", 150, 250, "router"⟩
      , ⟨"B", "B", 300, 150, "router"⟩
      , ⟨"C", "C", 300, 350, "router"⟩
      , ⟨"D", "D", 500, 100, "router"⟩
      , ⟨"E", "E", 500, 300, "router"⟩
      , ⟨"F", "F", 700, 200, "router"⟩ ]
  , edges :=
      [ ⟨"A", "B", 7⟩
      , ⟨"A", "C", 9⟩
      , ⟨"B", "D", 10⟩
      , ⟨"B", "C", 10⟩
      , ⟨"C", "E", 2⟩
      , ⟨"D", "F", 15⟩
      , ⟨"D", "E", 6⟩
      , ⟨"E", "F", 7⟩ ]
  }

/-! ## Walks, paths, and segment chains

A walk records a traversal of edges of the network in either declared
direction, between node ids present in the network. The set of walk costs
from a to b contains the cost of every path from a to b in the sense of the
specification, so a lower bound on all walk costs is in particular a lower
bound on all path costs. -/

/-- The edge e can be traversed between ids a and b (either direction). -/
def joins (e : NetworkEdge) (a b : String) : Prop :=
  (e.«from» = a ∧ e.«to» = b) ∨ (e.«from» = b ∧ e.«to» = a)

/-- Walk net a b c: there is a traversal from node id a to node id b along
edges of net with total cost c, all visited ids naming nodes of net. -/
inductive Walk (net : Network) : String → String → Int → Prop
  | nil (u : String) (hu : u ∈ net.nodeIds) : Walk net u u 0
  | cons (u v w : String) (c : Int) (e : NetworkEdge) (hu : u ∈ net.nodeIds)
      (he : e ∈ net.edges) (hj : joins e u v) (tail : Walk net v w c) :
      Walk net u w (e.cost + c)

/-- SegsChain a segs b: the segment list runs from id a to id b with each
segment starting where the previous one ended. -/
def SegsChain : String → List PathSegment → String → Prop
  | a, [], b => a = b
  | a, seg :: rest, b => seg.«from».id = a ∧ SegsChain seg.«to».id rest b

/-- Invariant of the main Dijkstra loop, over the network, the source id s,
the unvisited set U, the ghost list L of settled ids in removal order, and
the two maps. Settled distances are final and below every unsettled
distance; every edge out of a settled node has been relaxed; every finite
distance is the cost of an actual walk from the source; the previous-chain
always points from an id to an earlier-settled id. -/
structure LoopInv (net : Network) (s : String) (U L : List String)
    (dist : String → WithTop Int)
    (prev : String → Option (Option String)) : Prop where
  hids : ∀ x, x ∈ U ↔ (x ∈ net.nodeIds ∧ x ∉ L)
  hLsub : ∀ x ∈ L, x ∈ net.nodeIds
  hUnodup : U.Nodup
  hLnodup : L.Nodup
  hsrc : dist s = 0
  hnonneg : ∀ v, 0 ≤ dist v
  hmono : ∀ w ∈ L, ∀ v ∈ U, dist w ≤ dist v
  hfront : ∀ w ∈ L, ∀ v ∈ net.nodeIds, ∀ e ∈ net.edges, joins e w v →
    dist v ≤ dist w + (e.cost : WithTop Int)
  hach : ∀ (v : String) (c : Int), dist v = (c : WithTop Int) → Walk net s v c
  hout : ∀ v, v ∉ net.nodeIds → dist v = ⊤ ∧ prev v = none
  hdom : ∀ v ∈ net.nodeIds, prev v ≠ none
  hnullinf : ∀ v ∈ net.nodeIds, v ≠ s → prev v = some none → dist v = ⊤
  hprevsrc : prev s = some none
  hprevlink : ∀ v p, prev v = some (some p) → p ∈ L ∧ ∃ e ∈ net.edges,
    joins e p v ∧ dist v = dist p + (e.cost : WithTop Int)
  hrank : ∀ v p, prev v = some (some p) → v ∈ L →
    L.indexOf p < L.indexOf v
  hLfin : ∀ w ∈ L, dist w ≠ ⊤

/-! ## Concrete networks used as claim inputs -/

/-- One node A; used for a destination id absent from the graph. -/
def netDestAbsent : Network :=
  { nodes := [⟨"A", "A", 0, 0, "router"⟩], edges := [] }

/-- Two nodes joined by two parallel edges of different costs. -/
def netParallel : Network :=
  { nodes := [⟨"A", "A", 0, 0, "router"⟩, ⟨"B", "B", 1, 1, "router"⟩]
  , edges := [⟨"A", "B", 10⟩, ⟨"A", "B", 2⟩] }

/-- The unique path segment dijkstra returns on netParallel. -/
def parallelSegment : PathSegment :=
  ⟨⟨"A", "A", 0, 0, "router"⟩, ⟨"B", "B", 1, 1, "router"⟩, ⟨"A", "B", 10⟩⟩

/-! ## Packet renderer (simulator.tsx lines 317-348)

The packet-drawing logic of renderNetwork as a pure function: it returns the
drawn packet centre, or none when the guards suppress drawing. -/

/-- Linear interpolation between the endpoint positions of a segment
(simulator.tsx lines 325-328). -/
def lerpPos (seg : PathSegment) (frac : Rat) : Rat × Rat :=
  ( seg.«from».x + (seg.«to».x - seg.«from».x) * frac
  , seg.«from».y + (seg.«to».y - seg.«from».y) * frac )

/-- Packet position computed by renderNetwork. Drawing is guarded by
isAnimating, a non-empty path, and packetProgress > 0; the segment index is
the unclamped floor of progress times the segment count, and the packet is
drawn only when that index is below the path length. Inside the guards the
index is non-negative, so the toNat lookup matches the array access. -/
def packetPosition (path : List PathSegment) (isAnimating : Bool)
    (packetProgress : Rat) : Option (Rat × Rat) :=
  if isAnimating = true ∧ 0 < path.length ∧ 0 < packetProgress then
    let totalSegments : Rat := path.length
    let segmentProgress := packetProgress * totalSegments
    let currentSegmentIndex : Int := ⌊segmentProgress⌋
    let segmentFraction : Rat := segmentProgress - currentSegmentIndex
    if currentSegmentIndex < (path.length : Int) then
      match path.get? currentSegmentIndex.toNat with
      | some segment => some (lerpPos segment segmentFraction)
      | none => none
    else none
  else none

/-- Modelled from the spec (claim C5 wording): segmentIndex is the floor of
progress times N clamped to the range from 0 to N - 1, and the position is
always interpolated on that segment. Used only to compare the claimed
behaviour with the embedded renderer. -/
def claimPacketPosition (path : List PathSegment) (progress : Rat) :
    Option (Rat × Rat) :=
  let N : Int := path.length
  let segmentProgress := progress * (path.length : Rat)
  let segmentIndex : Int := max 0 (min ⌊segmentProgress⌋ (N - 1))
  let segmentFraction : Rat := segmentProgress - segmentIndex
  (path.get? segmentIndex.toNat).map (fun seg => lerpPos seg segmentFraction)

/-- A concrete two-segment path (the first two hops of the default network
shortest path), used as a renderer input. -/
def demoPath : List PathSegment :=
  [ ⟨⟨"A", "A", 150, 250, "router"⟩, ⟨"C", "C", 300, 350, "router"⟩, ⟨"A", "C", 9⟩⟩
  , ⟨⟨"C", "C", 300, 350, "router"⟩, ⟨"E", "E", 500, 300, "router"⟩, ⟨"C", "E", 2⟩⟩ ]

/-! ## Animation clock (simulator.tsx lines 357-382)

The animate callback reads the elapsed time, emits the clamped progress,
and either schedules the next tick (progress < 1) or performs the single
completion transition. A run is modelled by the list of elapsed-time samples
the scheduler would supply to consecutive ticks; the result is the list of
emitted progress values and the number of completion transitions fired. -/

/-- Progress value computed at one tick: min(elapsed / duration, 1). -/
def animProgress (duration elapsed : Rat) : Rat :=
  min (elapsed / duration) 1

/-- The tick loop: process elapsed samples until the first tick whose
progress reaches 1; that tick fires the completion transition exactly once
and schedules nothing further, so the remaining samples are dropped. -/
def animateRun (duration : Rat) : List Rat → List Rat × Nat
  | [] => ([], 0)
  | e :: rest =>
    let progress := animProgress duration e
    if progress < 1 then
      let r := animateRun duration rest
      (progress :: r.1, r.2)
    else ([progress], 1)

/-! ## Random network generator (simulator.tsx lines 102-172)

Math.random is modelled by an ambient stream rnd : Nat -> Rat consumed left
to right; an index into the stream is threaded through the computation. The
interesting theorems assume every stream value lies in the interval from 0
inclusive to 1 exclusive, which is the contract of Math.random. -/

/-- The label alphabet (simulator.tsx line 105). -/
def labels : List String :=
  ["A", "B", "C", "D", "E", "F", "G", "H", "I", "J"]

/-- JS labels[i], which is undefined out of range. The sentinel string below
is not in the alphabet, so its equality behaviour in every comparison the
program performs matches that of undefined. -/
def labelAt (i : Nat) : String :=
  labels.getD i "undefined"

/-- The spacing test (simulator.tsx lines 120-124). The source compares
Math.sqrt(dx * dx + dy * dy) with 100; over the reals this holds exactly
when dx * dx + dy * dy is at least 100 * 100, which avoids square roots. -/
def validPosition (nodes : List NetworkNode) (x y : Rat) : Bool :=
  nodes.all (fun node =>
    decide (100 * 100 ≤ (node.x - x) * (node.x - x) + (node.y - y) * (node.y - y)))

/-- Bounded rejection sampling for one node position (simulator.tsx lines
110-127): up to 100 attempts, two stream draws each; the first valid
candidate is kept, and when all attempts are exhausted the last drawn
position is accepted regardless. Arguments: stream index, remaining
attempts, last drawn position; result: accepted position and next index. -/
def placeLoop (rnd : Nat → Rat) (nodes : List NetworkNode) :
    Nat → Nat → Rat × Rat → (Rat × Rat) × Nat
  | k, 0, last => (last, k)
  | k, rem + 1, _ =>
    let x := 100 + rnd k * 700
    let y := 80 + rnd (k + 1) * 400
    if validPosition nodes x y then ((x, y), k + 2)
    else placeLoop rnd nodes (k + 2) rem (x, y)

/-- The node generation loop (simulator.tsx lines 109-136): each iteration
places one node and labels it by its index. -/
def genNodesLoop (rnd : Nat → Rat) :
    Nat → Nat → List NetworkNode → List NetworkNode × Nat
  | k, 0, acc => (acc, k)
  | k, count + 1, acc =>
    let res := placeLoop rnd acc k 100 (0, 0)
    let node : NetworkNode :=
      ⟨labelAt acc.length, labelAt acc.length, res.1.1, res.1.2, "router"⟩
    genNodesLoop rnd res.2 count (acc ++ [node])

/-- Fallback node for in-bounds array indexing, never reached on the index
ranges the spanning-tree loop uses. -/
def defaultNodeValue : NetworkNode := ⟨"", "", 0, 0, ""⟩

/-- One spanning-tree edge (simulator.tsx lines 139-146): node i is joined
to a random earlier node j, with a fresh random cost. -/
def spanStep (rnd : Nat → Rat) (nodes : List NetworkNode)
    (st : List NetworkEdge × Nat) (i : Nat) : List NetworkEdge × Nat :=
  let j := (⌊rnd st.2 * (i : Rat)⌋).toNat
  let e : NetworkEdge :=
    ⟨ (nodes.getD i defaultNodeValue).id
    , (nodes.getD j defaultNodeValue).id
    , ⌊rnd (st.2 + 1) * 15⌋ + 5 ⟩
  (st.1 ++ [e], st.2 + 2)

/-- The spanning-tree loop over indices 1 to n - 1. -/
def spanTree (rnd : Nat → Rat) (nodes : List NetworkNode) (k : Nat) :
    List NetworkEdge × Nat :=
  ((List.range nodes.length).drop 1).foldl (spanStep rnd nodes) ([], k)

/-- Direction-agnostic edge existence test (simulator.tsx lines 155-159). -/
def edgeExists (edges : List NetworkEdge) (a b : String) : Bool :=
  edges.any (fun e =>
    (e.«from» == a && e.«to» == b) || (e.«to» == a && e.«from» == b))

/-- One iteration of the extra-edge loop (simulator.tsx lines 150-169). Two
random node picks; a cost draw happens only when an edge is actually pushed.
Reading the id field of an out-of-range pick (possible only when the node
list is empty) throws in JavaScript, modelled by the none state, which is
then sticky. -/
def extraStep (rnd : Nat → Rat) (nodes : List NetworkNode)
    (st : Option (List NetworkEdge × Nat)) (_i : Nat) :
    Option (List NetworkEdge × Nat) :=
  match st with
  | none => none
  | some (edges, k) =>
    match nodes.get? (⌊rnd k * (nodes.length : Rat)⌋).toNat,
          nodes.get? (⌊rnd (k + 1) * (nodes.length : Rat)⌋).toNat with
    | some fromNode, some toNode =>
      if fromNode.id ≠ toNode.id then
        if edgeExists edges fromNode.id toNode.id then some (edges, k + 2)
        else
          some (edges ++ [⟨fromNode.id, toNode.id, ⌊rnd (k + 2) * 15⌋ + 5⟩], k + 3)
      else some (edges, k + 2)
    | _, _ => none

/-- generateRandomNetwork (simulator.tsx lines 102-172). The result is none
exactly when the extra-edge loop reads the id field of undefined, which
happens only for an empty node list. -/
def generateRandomNetwork (nodeCount : Nat) (rnd : Nat → Rat) :
    Option Network :=
  let resNodes := genNodesLoop rnd 0 nodeCount []
  let nodes := resNodes.1
  let resTree := spanTree rnd nodes resNodes.2
  let additionalEdges := (⌊rnd resTree.2 * 3⌋).toNat + 2
  let st0 : Option (List NetworkEdge × Nat) := some (resTree.1, resTree.2 + 1)
  match (List.range additionalEdges).foldl (extraStep rnd nodes) st0 with
  | some res => some { nodes := nodes, edges := res.1 }
  | none => none

/-- Candidate position derived from two consecutive stream values. -/
def candidateAt (rnd : Nat → Rat) (k : Nat) : Rat × Rat :=
  (100 + rnd k * 700, 80 + rnd (k + 1) * 400)

/-! ## Concrete sample streams -/

/-- A stream that places consecutive nodes on a 6-column grid with at least
100 units of separation, so every placement is accepted on the first
attempt; all values lie in the interval from 0 inclusive to 1 exclusive. -/
def rGrid : Nat → Rat :=
  fun k =>
    if k % 2 = 0 then (((k / 2) % 6 : Nat) : Rat) / 6
    else ((((k - 1) / 2 / 6) % 4 : Nat) : Rat) / 4

/-- rGrid with the single draw that selects the spanning-tree parent of node
index 11 replaced, so that parent 10 is chosen; with 12 requested nodes both
endpoints then carry the out-of-alphabet label. -/
def rC8stream : Nat → Rat :=
  fun k => if k = 44 then 10 / 11 else rGrid k

/-- The constant one-half stream. -/
def rHalf : Nat → Rat := fun _ => 1 / 2

/-! ## Basic reconstruction lemmas -/

/-- Once current is undefined, the reconstruction loop never exits: for every
fuel the result is none, which models an infinite loop in the source. -/
theorem reconstruct_undefined (net : Network)
    (prev : String → Option (Option String)) :
    ∀ fuel acc, reconstruct net prev fuel none acc = none := by
  intro fuel
  induction fuel with
  | zero => intro acc; rfl
  | succ n ih => intro acc; exact ih acc

/-! ## Claim C2 -/

/-- C2: on the fixed default 6-node network, dijkstra from A to F returns
exactly the three segments A-C, C-E, E-F, and their total cost is 18. -/
theorem claim_C2_default_path :
    dijkstra getDefaultNetwork "A" "F" =
      some
        [ ⟨⟨"A", "A", 150, 250, "router"⟩, ⟨"C", "C", 300, 350, "router"⟩, ⟨"A", "C", 9⟩⟩
        , ⟨⟨"C", "C", 300, 350, "router"⟩, ⟨"E", "E", 500, 300, "router"⟩, ⟨"C", "E", 2⟩⟩
        , ⟨⟨"E", "E", 500, 300, "router"⟩, ⟨"F", "F", 700, 200, "router"⟩, ⟨"E", "F", 7⟩⟩ ] ∧
    (dijkstra getDefaultNetwork "A" "F").map segsCost = some 18 := by
  constructor
  · decide
  · decide

/-! ## Claim C3 -/

/-- C3 (failing part): with the destination id absent from the graph, the
reconstruction loop never terminates, because previous.get of a missing key
is undefined, which is not strictly equal to null. For every amount of fuel
the embedded dijkstra is still running, contradicting the claimed empty
result. -/
theorem claim_C3_dest_absent_diverges :
    ∀ fuel, dijkstraWithFuel netDestAbsent "A" "Z" fuel = none := by
  intro fuel
  cases fuel with
  | zero => rfl
  | succ n =>
    have h : dijkstraWithFuel netDestAbsent "A" "Z" (n + 1) =
        reconstruct netDestAbsent
          (dijkstraLoop netDestAbsent "Z" (initUnvisited netDestAbsent).length
            (initUnvisited netDestAbsent)
            (initDist netDestAbsent "A", initPrev netDestAbsent)).2 n none [] := rfl
    rw [h]
    exact reconstruct_undefined _ _ n []

/-! ## Claim C1 counterexample -/

/-- C1 is false as stated: with two parallel A-B edges of costs 10 and 2, the
path reconstruction resolves the hop to the first matching edge (cost 10)
although the relaxation used the cost-2 edge, so the returned total cost 10
is not the minimum over all paths from A to B, which is 2. -/
theorem claim_C1_counterexample :
    dijkstra netParallel "A" "B" = some [parallelSegment] ∧
    Walk netParallel "A" "B" 2 ∧
    ¬ segsCost [parallelSegment] ≤ 2 := by
  refine ⟨by decide, ?_, by decide⟩
  have h : Walk netParallel "A" "B" ((2 : Int) + 0) :=
    Walk.cons "A" "B" "B" 0 ⟨"A", "B", 2⟩ (by decide) (by decide)
      (Or.inl ⟨rfl, rfl⟩) (Walk.nil "B" (by decide))
  simpa using h


/-! ## Membership and ordering facts about the unvisited set -/

theorem mem_setAdd {s : List String} {x y : String} :
    x ∈ setAdd s y ↔ x ∈ s ∨ x = y := by
  unfold setAdd
  by_cases h : y ∈ s
  · simp only [h, if_pos]
    constructor
    · exact Or.inl
    · rintro (hx | rfl) <;> [exact hx; exact h]
  · simp [h]

theorem nodup_setAdd {s : List String} (hs : s.Nodup) (y : String) :
    (setAdd s y).Nodup := by
  unfold setAdd
  by_cases h : y ∈ s
  · simpa [h]
  · simp [h, List.nodup_append, hs]

theorem mem_foldl_setAdd (l : List NetworkNode) :
    ∀ (s : List String) (x : String),
      x ∈ l.foldl (fun s n => setAdd s n.id) s ↔ x ∈ s ∨ x ∈ l.map NetworkNode.id := by
  induction l with
  | nil => intro s x; simp
  | cons n l ih =>
    intro s x
    rw [List.foldl_cons, ih (setAdd s n.id) x, mem_setAdd]
    simp only [List.map_cons, List.mem_cons]
    tauto

theorem nodup_foldl_setAdd (l : List NetworkNode) :
    ∀ (s : List String), s.Nodup → (l.foldl (fun s n => setAdd s n.id) s).Nodup := by
  induction l with
  | nil => intro s hs; exact hs
  | cons n l ih => intro s hs; exact ih _ (nodup_setAdd hs n.id)

theorem mem_initUnvisited {net : Network} {x : String} :
    x ∈ initUnvisited net ↔ x ∈ net.nodeIds := by
  rw [initUnvisited, mem_foldl_setAdd]
  simp [Network.nodeIds]

theorem nodup_initUnvisited (net : Network) : (initUnvisited net).Nodup :=
  nodup_foldl_setAdd net.nodes [] List.nodup_nil

theorem foldl_setAdd_eq (l : List NetworkNode) :
    ∀ s : List String, (s ++ l.map NetworkNode.id).Nodup →
      l.foldl (fun s n => setAdd s n.id) s = s ++ l.map NetworkNode.id := by
  induction l with
  | nil => intro s _; simp
  | cons n l ih =>
    intro s hs
    have hn : n.id ∉ s := by
      intro hmem
      have := List.disjoint_of_nodup_append hs
      exact this hmem (by simp)
    rw [List.foldl_cons]
    have h1 : setAdd s n.id = s ++ [n.id] := by simp [setAdd, hn]
    rw [h1, ih (s ++ [n.id]) (by simpa using hs)]
    simp

theorem initUnvisited_eq_nodeIds {net : Network} (h : net.nodeIds.Nodup) :
    initUnvisited net = net.nodeIds := by
  have := foldl_setAdd_eq net.nodes [] (by simpa [Network.nodeIds] using h)
  simpa [initUnvisited, Network.nodeIds] using this

/-! ## Characterisation of the minimum scan -/

theorem scanFold_spec (dist : String → WithTop Int) :
    ∀ (U : List String) (acc : Option String × WithTop Int),
      (U.foldl (scanStep dist) acc).2 ≤ acc.2 ∧
      (∀ v ∈ U, (U.foldl (scanStep dist) acc).2 ≤ dist v) ∧
      (U.foldl (scanStep dist) acc = acc ∨
        ∃ l₁ c l₂, U = l₁ ++ c :: l₂ ∧
          (U.foldl (scanStep dist) acc).1 = some c ∧
          (U.foldl (scanStep dist) acc).2 = dist c ∧
          dist c < acc.2 ∧ (∀ v ∈ l₁, dist c < dist v)) := by
  intro U
  induction U with
  | nil => intro acc; refine ⟨le_rfl, by simp, Or.inl rfl⟩
  | cons u U ih =>
    intro acc
    rw [List.foldl_cons]
    by_cases h : dist u < acc.2
    · have hstep : scanStep dist acc u = (some u, dist u) := by
        simp [scanStep, h]
      rw [hstep]
      obtain ⟨ih1, ih2, ih3⟩ := ih (some u, dist u)
      refine ⟨le_trans ih1 h.le, ?_, ?_⟩
      · intro v hv
        rcases List.mem_cons.mp hv with rfl | hv
        · exact ih1
        · exact ih2 v hv
      · rcases ih3 with heq | ⟨l₁, c, l₂, rfl, hc1, hc2, hc3, hc4⟩
        · refine Or.inr ⟨[], u, U, rfl, ?_, ?_, h, by simp⟩
          · rw [heq]
          · rw [heq]
        · refine Or.inr ⟨u :: l₁, c, l₂, rfl, hc1, hc2, lt_trans hc3 h, ?_⟩
          intro v hv
          rcases List.mem_cons.mp hv with rfl | hv
          · exact hc3
          · exact hc4 v hv
    · have hstep : scanStep dist acc u = acc := by
        simp [scanStep, h]
      rw [hstep]
      obtain ⟨ih1, ih2, ih3⟩ := ih acc
      refine ⟨ih1, ?_, ?_⟩
      · intro v hv
        rcases List.mem_cons.mp hv with rfl | hv
        · exact le_trans ih1 (not_lt.mp h)
        · exact ih2 v hv
      · rcases ih3 with heq | ⟨l₁, c, l₂, rfl, hc1, hc2, hc3, hc4⟩
        · exact Or.inl heq
        · refine Or.inr ⟨u :: l₁, c, l₂, rfl, hc1, hc2, hc3, ?_⟩
          intro v hv
          rcases List.mem_cons.mp hv with rfl | hv
          · exact lt_of_lt_of_le hc3 (not_lt.mp h)
          · exact hc4 v hv

/-- When the scan returns a candidate: it is a member of the set, carries its
own distance, that distance is finite and minimal over the set, and every
strictly earlier member of the set has a strictly larger distance. -/
theorem scanMin_some {U : List String} {dist : String → WithTop Int}
    {c : String} {m : WithTop Int} (h : scanMin U dist = (some c, m)) :
    m = dist c ∧ c ∈ U ∧ m ≠ ⊤ ∧ (∀ v ∈ U, m ≤ dist v) ∧
      ∃ l₁ l₂, U = l₁ ++ c :: l₂ ∧ ∀ v ∈ l₁, dist c < dist v := by
  obtain ⟨h1, h2, h3⟩ := scanFold_spec dist U (none, ⊤)
  rw [scanMin] at h
  rw [h] at h1 h2 h3
  rcases h3 with heq | ⟨l₁, c', l₂, hU, hc1, hc2, hc3, hc4⟩
  · exact absurd (congrArg Prod.fst heq) (by simp)
  · obtain rfl : c' = c := by simpa using hc1.symm
    simp only at hc2
    refine ⟨hc2, by rw [hU]; simp, ?_, h2, l₁, l₂, hU, hc4⟩
    rw [hc2]
    exact (lt_of_lt_of_le hc3 le_top).ne
    
/-- When the scan returns no candidate, every member distance is infinite. -/
theorem scanMin_none {U : List String} {dist : String → WithTop Int}
    {m : WithTop Int} (h : scanMin U dist = (none, m)) :
    ∀ v ∈ U, dist v = ⊤ := by
  obtain ⟨h1, h2, h3⟩ := scanFold_spec dist U (none, ⊤)
  rw [scanMin] at h
  rw [h] at h1 h2 h3
  rcases h3 with heq | ⟨l₁, c', l₂, hU, hc1, hc2, hc3, hc4⟩
  · intro v hv
    have : ((none : Option String), m) = ((none : Option String), (⊤ : WithTop Int)) := heq
    have hm : m = ⊤ := congrArg Prod.snd this
    have := h2 v hv
    simp only [hm] at this
    exact top_le_iff.mp this
  · exact absurd hc1 (by simp)

/-! ## Claim C7 -/

/-- C7: for every graph and every node id X present in it, dijkstra from X
to X terminates with the empty sequence: the first scan selects X itself
(distance 0, the only finite distance), the loop breaks at once, and the
reconstruction exits immediately on the untouched previous map. The result
is the same for every reconstruction fuel of at least 1, which is the
termination statement. -/
theorem claim_C7_source_eq_dest (net : Network) (X : String)
    (hX : X ∈ net.nodeIds) :
    dijkstra net X X = some [] ∧
      ∀ fuel, 1 ≤ fuel → dijkstraWithFuel net X X fuel = some [] := by
  have hXU : X ∈ initUnvisited net := mem_initUnvisited.mpr hX
  have hids : ∀ v ∈ initUnvisited net, v ∈ net.nodeIds :=
    fun v hv => mem_initUnvisited.mp hv
  have hdX : initDist net X X = 0 := by simp [initDist, hX]
  have hsome : scanMin (initUnvisited net) (initDist net X) = (some X, 0) := by
    rcases hsm : scanMin (initUnvisited net) (initDist net X) with ⟨r1, r2⟩
    cases r1 with
    | none =>
      have h0 := scanMin_none hsm X hXU
      rw [hdX] at h0
      exact absurd h0 (by decide)
    | some c =>
      obtain ⟨hm, hcU, hmt, -, -⟩ := scanMin_some hsm
      have hcid : c ∈ net.nodeIds := hids c hcU
      by_cases hcX : c = X
      · subst hcX
        rw [hdX] at hm
        rw [hm]
      · have hdc : initDist net X c = ⊤ := by simp [initDist, hcid, hcX]
        rw [hdc] at hm
        exact absurd hm hmt
  have hlen : ∃ m, (initUnvisited net).length = m + 1 := by
    refine Nat.exists_eq_succ_of_ne_zero ?_
    intro h
    rw [List.length_eq_zero] at h
    rw [h] at hXU
    exact List.not_mem_nil X hXU
  obtain ⟨m, hm⟩ := hlen
  have hne : (initUnvisited net).isEmpty = false := by
    rcases h : initUnvisited net with _ | ⟨a, l⟩
    · rw [h] at hXU; exact absurd hXU (List.not_mem_nil X)
    · rfl
  have hloop : dijkstraLoop net X (m + 1) (initUnvisited net)
      (initDist net X, initPrev net) = (initDist net X, initPrev net) := by
    rw [dijkstraLoop, hne, hsome]
    by_cases hXe : X = ""
    · simp [hXe]
    · have h0 : (0 : WithTop Int) ≠ ⊤ := by decide
      simp [hXe, h0]
  have hp : initPrev net X = some none := by simp [initPrev, hX]
  have hrec : ∀ f, reconstruct net (initPrev net) (f + 1) (some X) [] = some [] := by
    intro f
    simp [reconstruct, hp]
  have hfuels : ∀ fuel, 1 ≤ fuel → dijkstraWithFuel net X X fuel = some [] := by
    intro fuel hfuel
    obtain ⟨f, rfl⟩ : ∃ f, fuel = f + 1 := ⟨fuel - 1, by omega⟩
    rw [dijkstraWithFuel, hm, hloop]
    exact hrec f
  exact ⟨hfuels (net.nodes.length + 1) (by omega), hfuels⟩

/-- Witness for C7 on the default network at node C. -/
theorem claim_C7_witness :
    dijkstra getDefaultNetwork "C" "C" = some [] ∧
      ∀ fuel, 1 ≤ fuel → dijkstraWithFuel getDefaultNetwork "C" "C" fuel = some [] :=
  claim_C7_source_eq_dest getDefaultNetwork "C" (by decide)

/-! ## Claim C5 -/

/-- C5 is false as stated: the renderer does not clamp the segment index and
draws nothing at the endpoints of the progress range. At progress 1 the
floored index equals the segment count, the bounds guard fails, and no
position is produced, while the claimed clamped mapping yields the endpoint
of the last segment; at progress 0 the positivity guard already suppresses
drawing, while the claim promises segment 0 at fraction 0. -/
theorem claim_C5_counterexample :
    packetPosition demoPath true 1 = none ∧
    claimPacketPosition demoPath 1 = some (500, 300) ∧
    packetPosition demoPath true 1 ≠ claimPacketPosition demoPath 1 ∧
    packetPosition demoPath true 0 = none ∧
    claimPacketPosition demoPath 0 = some (150, 250) := by
  refine ⟨by decide, by decide, by decide, by decide, by decide⟩

/-- C5 amended: for progress strictly between 0 and 1 on a non-empty path
(with the animation flag set), the renderer draws at the unclamped floored
segment index, which then automatically lies in range, at fraction
segmentProgress minus the index; at progress 0 and at progress 1 nothing is
drawn. -/
theorem claim_C5_packet_position (path : List PathSegment) (p : Rat)
    (hne : path ≠ []) (h0 : 0 < p) (h1 : p < 1) :
    (∃ seg, path.get? (⌊p * (path.length : Rat)⌋).toNat = some seg ∧
        packetPosition path true p =
          some (lerpPos seg
            (p * (path.length : Rat) - (⌊p * (path.length : Rat)⌋ : Int)))) ∧
    packetPosition path true 0 = none ∧
    packetPosition path true 1 = none := by
  have hlen : 0 < path.length := List.length_pos.mpr hne
  have hlenQ : (0 : Rat) < (path.length : Rat) := by exact_mod_cast hlen
  refine ⟨?_, ?_, ?_⟩
  · have hs0 : 0 < p * (path.length : Rat) := mul_pos h0 hlenQ
    have hsN : p * (path.length : Rat) < (path.length : Rat) := by
      calc p * (path.length : Rat) < 1 * (path.length : Rat) :=
            mul_lt_mul_of_pos_right h1 hlenQ
        _ = (path.length : Rat) := one_mul _
    have hfl : ⌊p * (path.length : Rat)⌋ < (path.length : Int) := by
      rw [Int.floor_lt]
      exact_mod_cast hsN
    have hfl0 : 0 ≤ ⌊p * (path.length : Rat)⌋ := Int.floor_nonneg.mpr hs0.le
    have hidx : (⌊p * (path.length : Rat)⌋).toNat < path.length := by omega
    have hget := List.get?_eq_get hidx
    refine ⟨path.get ⟨(⌊p * (path.length : Rat)⌋).toNat, hidx⟩, hget, ?_⟩
    rw [packetPosition, if_pos ⟨rfl, hlen, h0⟩, if_pos hfl, hget]
  · rw [packetPosition, if_neg]
    rintro ⟨-, -, h⟩
    exact absurd h (by norm_num)
  · rw [packetPosition, if_pos ⟨rfl, hlen, by norm_num⟩, if_neg]
    rw [one_mul, Int.floor_natCast]
    omega

/-- Witness for the amended C5 at the two-segment demo path and progress one
half, where the renderer reports the segment of index 1 at fraction 0. -/
theorem claim_C5_witness :
    demoPath ≠ [] ∧ (0 : Rat) < 1/2 ∧ (1 : Rat)/2 < 1 ∧
    ((∃ seg, demoPath.get? (⌊(1 : Rat)/2 * (demoPath.length : Rat)⌋).toNat = some seg ∧
        packetPosition demoPath true (1/2) =
          some (lerpPos seg
            ((1 : Rat)/2 * (demoPath.length : Rat) -
              (⌊(1 : Rat)/2 * (demoPath.length : Rat)⌋ : Int)))) ∧
      packetPosition demoPath true 0 = none ∧
      packetPosition demoPath true 1 = none) :=
  ⟨by decide, by decide, by decide,
    claim_C5_packet_position demoPath (1/2) (by decide) (by decide) (by decide)⟩

/-! ## Claim C6 -/

/-- C6: every emitted progress value is min(elapsed / duration, 1), so never
exceeds 1; the completion transition count is at most 1, and it is exactly 1
precisely when some processed tick reaches the duration; and for any run
that reaches the duration, the run consists of the progress values of the
ticks before the first such tick, followed by a single emitted 1, with the
completion fired once and no later tick processed. -/
theorem claim_C6_animation_clock (D : Rat) (hD : 0 < D) (ticks : List Rat) :
    (∀ p ∈ (animateRun D ticks).1, p ≤ 1 ∧ ∃ e ∈ ticks, p = min (e / D) 1) ∧
    (animateRun D ticks).2 ≤ 1 ∧
    ((animateRun D ticks).2 = 1 ↔ ∃ e ∈ ticks, D ≤ e) ∧
    (∀ l₁ e l₂, ticks = l₁ ++ e :: l₂ → (∀ x ∈ l₁, x < D) → D ≤ e →
      animateRun D ticks = (l₁.map (animProgress D) ++ [1], 1)) := by
  induction ticks with
  | nil =>
    refine ⟨by simp [animateRun], by simp [animateRun], by simp [animateRun], ?_⟩
    intro l₁ e l₂ habs
    exact absurd habs.symm (List.append_ne_nil_of_right_ne_nil l₁ (by simp))
  | cons t rest ih =>
    obtain ⟨ih1, ih2, ih3, ih4⟩ := ih
    have hlt : animProgress D t < 1 ↔ t < D := by
      rw [animProgress, min_lt_iff]
      constructor
      · rintro (h | h)
        · exact (div_lt_one hD).mp h
        · exact absurd h (lt_irrefl 1)
      · intro h
        exact Or.inl ((div_lt_one hD).mpr h)
    have hone : D ≤ t → animProgress D t = 1 := by
      intro h
      rw [animProgress, min_eq_right]
      exact (one_le_div hD).mpr h
    by_cases h : animProgress D t < 1
    · have ht : t < D := hlt.mp h
      have hrun : animateRun D (t :: rest) =
          (animProgress D t :: (animateRun D rest).1, (animateRun D rest).2) := by
        rw [animateRun, if_pos h]
      rw [hrun]
      refine ⟨?_, ih2, ?_, ?_⟩
      · intro p hp
        rcases List.mem_cons.mp hp with rfl | hp
        · exact ⟨min_le_right _ _, t, by simp, rfl⟩
        · obtain ⟨hp1, e, he, hpe⟩ := ih1 p hp
          exact ⟨hp1, e, List.mem_cons_of_mem t he, hpe⟩
      · rw [ih3]
        constructor
        · rintro ⟨e, he, hDe⟩
          exact ⟨e, List.mem_cons_of_mem t he, hDe⟩
        · rintro ⟨e, he, hDe⟩
          rcases List.mem_cons.mp he with rfl | he
          · exact absurd hDe (not_le.mpr ht)
          · exact ⟨e, he, hDe⟩
      · intro l₁ e l₂ heq hsmall hDe
        cases l₁ with
        | nil =>
          simp only [List.nil_append, List.cons.injEq] at heq
          obtain ⟨rfl, rfl⟩ := heq
          exact absurd hDe (not_le.mpr ht)
        | cons x l₁ =>
          simp only [List.cons_append, List.cons.injEq] at heq
          obtain ⟨rfl, heq⟩ := heq
          have := ih4 l₁ e l₂ heq (fun y hy => hsmall y (List.mem_cons_of_mem t hy)) hDe
          rw [this]
          simp
    · have ht : D ≤ t := by
        by_contra hc
        exact h (hlt.mpr (not_le.mp hc))
      have hrun : animateRun D (t :: rest) = ([animProgress D t], 1) := by
        rw [animateRun, if_neg h]
      rw [hrun, hone ht]
      refine ⟨?_, le_rfl, ?_, ?_⟩
      · intro p hp
        rcases List.mem_cons.mp hp with rfl | hp
        · exact ⟨le_rfl, t, by simp, (hone ht).symm⟩
        · exact absurd hp (List.not_mem_nil p)
      · exact ⟨fun _ => ⟨t, by simp, ht⟩, fun _ => rfl⟩
      · intro l₁ e l₂ heq hsmall hDe
        cases l₁ with
        | nil => simp
        | cons x l₁ =>
          simp only [List.cons_append, List.cons.injEq] at heq
          obtain ⟨rfl, -⟩ := heq
          exact absurd ht (not_le.mpr (hsmall t (by simp)))

/-- Witness for C6: duration 2500 with elapsed samples 1000, 3000, 4000. -/
theorem claim_C6_witness :
    (∀ p ∈ (animateRun 2500 [1000, 3000, 4000]).1,
        p ≤ 1 ∧ ∃ e ∈ [(1000 : Rat), 3000, 4000], p = min (e / 2500) 1) ∧
    (animateRun 2500 [1000, 3000, 4000]).2 ≤ 1 ∧
    ((animateRun 2500 [1000, 3000, 4000]).2 = 1 ↔
      ∃ e ∈ [(1000 : Rat), 3000, 4000], 2500 ≤ e) ∧
    (∀ l₁ e l₂, [(1000 : Rat), 3000, 4000] = l₁ ++ e :: l₂ →
      (∀ x ∈ l₁, x < 2500) → 2500 ≤ e →
      animateRun 2500 [1000, 3000, 4000] = (l₁.map (animProgress 2500) ++ [1], 1)) :=
  claim_C6_animation_clock 2500 (by decide) [1000, 3000, 4000]

/-! ## Claim C10 -/

/-- C10: the two data-dependent choices inside dijkstra are deterministic
functions of the input with the stated resolution rules. The minimum scan
returns the earliest-inserted node among those of minimal tentative
distance: every strictly earlier member of the unvisited set has a strictly
larger distance, and every member has a distance at least as large. The hop
resolution returns the first matching edge in the edge order of the graph:
it matches, and every earlier edge does not. Purity holds by construction:
the embedded dijkstra is a function of the network and the two ids alone,
and the source only reads the network. -/
theorem claim_C10_determinism :
    (∀ (U : List String) (dist : String → WithTop Int) (c : String)
        (m : WithTop Int), scanMin U dist = (some c, m) →
      m = dist c ∧ c ∈ U ∧ (∀ v ∈ U, dist c ≤ dist v) ∧
        ∃ l₁ l₂, U = l₁ ++ c :: l₂ ∧ ∀ v ∈ l₁, dist c < dist v) ∧
    (∀ (edges : List NetworkEdge) (a b : String) (e : NetworkEdge),
        findEdgeBetween edges a b = some e →
      ((e.«from» == a && e.«to» == b) || (e.«to» == a && e.«from» == b)) = true ∧
        ∃ l₁ l₂, edges = l₁ ++ e :: l₂ ∧
          ∀ e' ∈ l₁,
            (( e'.«from» == a && e'.«to» == b) || ( e'.«to» == a && e'.«from» == b)) = false) := by
  constructor
  · intro U dist c m h
    obtain ⟨hm, hcU, -, hmin, l₁, l₂, hU, hfirst⟩ := scanMin_some h
    subst hm
    exact ⟨rfl, hcU, hmin, l₁, l₂, hU, hfirst⟩
  · intro edges a b e h
    rw [findEdgeBetween, List.find?_eq_some] at h
    obtain ⟨hp, l₁, l₂, heq, hnot⟩ := h
    refine ⟨hp, l₁, l₂, heq, ?_⟩
    intro e' he'
    have h2 := hnot e' he'
    simp only [Bool.not_eq_true'] at h2
    exact h2

/-- Witness for C10 on a two-element unvisited set with a distance tie and a
two-edge list with both edges matching. -/
theorem claim_C10_witness :
    ((0 : WithTop Int) = (fun v => if v = "A" ∨ v = "B" then (0 : WithTop Int) else ⊤) "A" ∧
      "A" ∈ ["A", "B"] ∧
      (∀ v ∈ ["A", "B"],
        (fun v => if v = "A" ∨ v = "B" then (0 : WithTop Int) else ⊤) "A" ≤
          (fun v => if v = "A" ∨ v = "B" then (0 : WithTop Int) else ⊤) v) ∧
      ∃ l₁ l₂, ["A", "B"] = l₁ ++ "A" :: l₂ ∧
        ∀ v ∈ l₁,
          (fun v => if v = "A" ∨ v = "B" then (0 : WithTop Int) else ⊤) "A" <
            (fun v => if v = "A" ∨ v = "B" then (0 : WithTop Int) else ⊤) v) ∧
    (((NetworkEdge.mk "A" "B" 10).«from» == "A" &&
        (NetworkEdge.mk "A" "B" 10).«to» == "B") ||
       ((NetworkEdge.mk "A" "B" 10).«to» == "A" &&
        (NetworkEdge.mk "A" "B" 10).«from» == "B")) = true ∧
      ∃ l₁ l₂, [NetworkEdge.mk "A" "B" 10, NetworkEdge.mk "A" "B" 2] =
          l₁ ++ NetworkEdge.mk "A" "B" 10 :: l₂ ∧
        ∀ e' ∈ l₁,
          (( e'.«from» == "A" && e'.«to» == "B") ||
           ( e'.«to» == "A" && e'.«from» == "B")) = false :=
  ⟨claim_C10_determinism.1 ["A", "B"]
      (fun v => if v = "A" ∨ v = "B" then (0 : WithTop Int) else ⊤) "A" 0
      (by decide),
    claim_C10_determinism.2 [NetworkEdge.mk "A" "B" 10, NetworkEdge.mk "A" "B" 2]
      "A" "B" (NetworkEdge.mk "A" "B" 10) (by decide)⟩

/-! ## Arithmetic facts for the generator -/

theorem floor_mul_nat_bound {r : Rat} (h0 : 0 ≤ r) (h1 : r < 1) {m : Nat}
    (hm : 1 ≤ m) : 0 ≤ ⌊r * (m : Rat)⌋ ∧ ⌊r * (m : Rat)⌋ < (m : Int) := by
  have hmQ : (0 : Rat) < (m : Rat) := by exact_mod_cast hm
  constructor
  · exact Int.floor_nonneg.mpr (mul_nonneg h0 hmQ.le)
  · rw [Int.floor_lt]
    push_cast
    calc r * (m : Rat) < 1 * (m : Rat) := mul_lt_mul_of_pos_right h1 hmQ
      _ = (m : Rat) := one_mul _

theorem cost_floor_bound {r : Rat} (h0 : 0 ≤ r) (h1 : r < 1) :
    5 ≤ ⌊r * 15⌋ + 5 ∧ ⌊r * 15⌋ + 5 ≤ 19 := by
  have h2 : 0 ≤ ⌊r * 15⌋ := Int.floor_nonneg.mpr (by positivity)
  have h3 : ⌊r * 15⌋ < 15 := by
    rw [Int.floor_lt]
    push_cast
    calc r * 15 < 1 * 15 := mul_lt_mul_of_pos_right h1 (by norm_num)
      _ = 15 := one_mul _
  omega

theorem rGrid_mem (k : Nat) : 0 ≤ rGrid k ∧ rGrid k < 1 := by
  rw [rGrid]
  by_cases h : k % 2 = 0 <;> simp only [h, if_true, if_false, reduceIte]
  · refine ⟨by positivity, ?_⟩
    rw [div_lt_one (by norm_num)]
    exact_mod_cast Nat.mod_lt (k / 2) (by norm_num)
  · refine ⟨by positivity, ?_⟩
    rw [div_lt_one (by norm_num)]
    exact_mod_cast Nat.mod_lt ((k - 1) / 2 / 6) (by norm_num)

theorem rHalf_mem (k : Nat) : 0 ≤ rHalf k ∧ rHalf k < 1 := by
  rw [rHalf]
  norm_num

/-! ## Node generation facts -/

theorem genNodesLoop_length (rnd : Nat → Rat) :
    ∀ (count k : Nat) (acc : List NetworkNode),
      (genNodesLoop rnd k count acc).1.length = acc.length + count := by
  intro count
  induction count with
  | zero => intro k acc; rfl
  | succ n ih =>
    intro k acc
    rw [genNodesLoop, ih]
    simp only [List.length_append, List.length_cons, List.length_nil]
    omega

theorem genNodesLoop_ids (rnd : Nat → Rat) :
    ∀ (count k : Nat) (acc : List NetworkNode),
      (genNodesLoop rnd k count acc).1.map NetworkNode.id =
        acc.map NetworkNode.id ++ (List.range' acc.length count).map labelAt := by
  intro count
  induction count with
  | zero => intro k acc; simp [genNodesLoop]
  | succ n ih =>
    intro k acc
    rw [genNodesLoop, ih]
    rw [List.range'_succ]
    simp only [List.map_append, List.map_cons, List.map_nil, List.length_append,
      List.length_cons, List.length_nil, List.append_assoc, List.cons_append,
      List.nil_append]

theorem range_map_labelAt : ∀ n, n ≤ 10 →
    (List.range' 0 n).map labelAt = labels.take n := by
  decide

theorem labels_take_nodup (n : Nat) : (labels.take n).Nodup :=
  (List.take_sublist n labels).nodup (by decide)

/-! ## Placement loop characterisation -/

theorem placeLoop_spec (rnd : Nat → Rat) (nodes : List NetworkNode) :
    ∀ rem, 1 ≤ rem → ∀ (k : Nat) (last : Rat × Rat),
      ∃ m, 1 ≤ m ∧ m ≤ rem ∧
        placeLoop rnd nodes k rem last =
          (candidateAt rnd (k + 2 * (m - 1)), k + 2 * m) ∧
        (validPosition nodes (candidateAt rnd (k + 2 * (m - 1))).1
            (candidateAt rnd (k + 2 * (m - 1))).2 = true ∨ m = rem) ∧
        ∀ t, t + 1 < m →
          validPosition nodes (candidateAt rnd (k + 2 * t)).1
            (candidateAt rnd (k + 2 * t)).2 = false := by
  intro rem
  induction rem with
  | zero => intro h; exact absurd h (by omega)
  | succ r ih =>
    intro _ k last
    by_cases hval : validPosition nodes (100 + rnd k * 700) (80 + rnd (k + 1) * 400) = true
    · refine ⟨1, le_rfl, by omega, ?_, ?_, by omega⟩
      · rw [placeLoop, if_pos hval]
        simp [candidateAt]
      · left
        simpa [candidateAt] using hval
    · have hval' : validPosition nodes (100 + rnd k * 700) (80 + rnd (k + 1) * 400) = false :=
        Bool.not_eq_true _ ▸ eq_false_of_ne_true hval
      cases r with
      | zero =>
        refine ⟨1, le_rfl, le_rfl, ?_, Or.inr rfl, by omega⟩
        rw [placeLoop, if_neg hval]
        simp [placeLoop, candidateAt]
      | succ r' =>
        obtain ⟨m, hm1, hm2, heq, hor, hprev⟩ := ih (by omega) (k + 2)
          (100 + rnd k * 700, 80 + rnd (k + 1) * 400)
        refine ⟨m + 1, by omega, by omega, ?_, ?_, ?_⟩
        · rw [placeLoop, if_neg hval, heq]
          have : k + 2 + 2 * (m - 1) = k + 2 * (m + 1 - 1) := by omega
          rw [this]
          have h2 : k + 2 + 2 * m = k + 2 * (m + 1) := by omega
          rw [h2]
        · have : k + 2 + 2 * (m - 1) = k + 2 * (m + 1 - 1) := by omega
          rw [this] at hor
          rcases hor with h | h
          · exact Or.inl h
          · exact Or.inr (by omega)
        · intro t ht
          cases t with
          | zero => simpa [candidateAt] using hval'
          | succ t' =>
            have := hprev t' (by omega)
            have harith : k + 2 + 2 * t' = k + 2 * (t' + 1) := by omega
            rwa [harith] at this

/-! ## Spanning tree fold facts -/

theorem spanFold_mono (rnd : Nat → Rat) (nodes : List NetworkNode) :
    ∀ (l : List Nat) (st : List NetworkEdge × Nat),
      ∀ e ∈ st.1, e ∈ (l.foldl (spanStep rnd nodes) st).1 := by
  intro l
  induction l with
  | nil => intro st e he; exact he
  | cons i l ih =>
    intro st e he
    rw [List.foldl_cons]
    exact ih _ e (by rw [spanStep]; exact List.mem_append_left _ he)

theorem spanFold_length (rnd : Nat → Rat) (nodes : List NetworkNode) :
    ∀ (l : List Nat) (st : List NetworkEdge × Nat),
      (l.foldl (spanStep rnd nodes) st).1.length = st.1.length + l.length := by
  intro l
  induction l with
  | nil => intro st; simp
  | cons i l ih =>
    intro st
    rw [List.foldl_cons, ih]
    simp [spanStep]
    omega

theorem spanFold_mem (rnd : Nat → Rat) (nodes : List NetworkNode)
    (hr : ∀ i, 0 ≤ rnd i ∧ rnd i < 1) :
    ∀ (l : List Nat) (st : List NetworkEdge × Nat), (∀ i ∈ l, 1 ≤ i) →
      ∀ e ∈ (l.foldl (spanStep rnd nodes) st).1,
        e ∈ st.1 ∨
          ∃ i j, j < i ∧ i ∈ l ∧
            e.«from» = (nodes.getD i defaultNodeValue).id ∧
            e.«to» = (nodes.getD j defaultNodeValue).id ∧
            ∃ r : Rat, 0 ≤ r ∧ r < 1 ∧ e.cost = ⌊r * 15⌋ + 5 := by
  intro l
  induction l with
  | nil => intro st _ e he; exact Or.inl he
  | cons i l ih =>
    intro st hl e he
    rw [List.foldl_cons] at he
    rcases ih (spanStep rnd nodes st i) (fun x hx => hl x (List.mem_cons_of_mem i hx))
        e he with h | ⟨i', j', hji, hil, hfrom, hto, hr'⟩
    · rw [spanStep] at h
      rcases List.mem_append.mp h with h | h
      · exact Or.inl h
      · rw [List.mem_singleton] at h
        subst h
        have hi1 : 1 ≤ i := hl i (List.mem_cons_self i l)
        obtain ⟨hj0, hjlt⟩ := floor_mul_nat_bound (hr st.2).1 (hr st.2).2 hi1
        refine Or.inr ⟨i, (⌊rnd st.2 * (i : Rat)⌋).toNat, by omega, List.mem_cons_self i l,
          rfl, rfl, rnd (st.2 + 1), (hr (st.2 + 1)).1, (hr (st.2 + 1)).2, rfl⟩
    · exact Or.inr ⟨i', j', hji, List.mem_cons_of_mem i hil, hfrom, hto, hr'⟩

theorem spanFold_covers (rnd : Nat → Rat) (nodes : List NetworkNode)
    (hr : ∀ i, 0 ≤ rnd i ∧ rnd i < 1) :
    ∀ (l : List Nat) (st : List NetworkEdge × Nat) (i : Nat), i ∈ l → 1 ≤ i →
      ∃ j, j < i ∧ ∃ e ∈ (l.foldl (spanStep rnd nodes) st).1,
        e.«from» = (nodes.getD i defaultNodeValue).id ∧
        e.«to» = (nodes.getD j defaultNodeValue).id := by
  intro l
  induction l with
  | nil => intro st i hi; exact absurd hi (List.not_mem_nil i)
  | cons a l ih =>
    intro st i hi hi1
    rw [List.foldl_cons]
    rcases List.mem_cons.mp hi with rfl | hi
    · obtain ⟨hj0, hjlt⟩ := floor_mul_nat_bound (hr st.2).1 (hr st.2).2 hi1
      refine ⟨(⌊rnd st.2 * (i : Rat)⌋).toNat, by omega,
        ⟨(nodes.getD i defaultNodeValue).id,
          (nodes.getD (⌊rnd st.2 * (i : Rat)⌋).toNat defaultNodeValue).id,
          ⌊rnd (st.2 + 1) * 15⌋ + 5⟩, ?_, rfl, rfl⟩
      apply spanFold_mono
      rw [spanStep]
      exact List.mem_append_right _ (List.mem_singleton_self _)
    · exact ih _ i hi hi1

/-! ## Extra edge fold facts -/

theorem extraFold_none (rnd : Nat → Rat) (nodes : List NetworkNode) :
    ∀ l : List Nat, l.foldl (extraStep rnd nodes) none = none := by
  intro l
  induction l with
  | nil => rfl
  | cons i l ih => rw [List.foldl_cons]; exact ih

theorem extraStep_some (rnd : Nat → Rat) (nodes : List NetworkNode)
    (hr : ∀ i, 0 ≤ rnd i ∧ rnd i < 1)
    {edges : List NetworkEdge} {k : Nat} {res : Option (List NetworkEdge × Nat)}
    (i : Nat) (h : extraStep rnd nodes (some (edges, k)) i = res) (hres : res ≠ none) :
    ∃ edges' k', res = some (edges', k') ∧
      (∀ e ∈ edges, e ∈ edges') ∧
      ∀ e ∈ edges', e ∈ edges ∨
        (e.«from» ≠ e.«to» ∧ (∃ n1 ∈ nodes, e.«from» = n1.id) ∧
          (∃ n2 ∈ nodes, e.«to» = n2.id) ∧
          ∃ r : Rat, 0 ≤ r ∧ r < 1 ∧ e.cost = ⌊r * 15⌋ + 5) := by
  rw [extraStep] at h
  rcases h1 : nodes.get? (⌊rnd k * (nodes.length : Rat)⌋).toNat with _ | fromNode
  · rw [h1] at h
    simp only at h
    exact absurd h.symm hres
  rcases h2 : nodes.get? (⌊rnd (k + 1) * (nodes.length : Rat)⌋).toNat with _ | toNode
  · rw [h1, h2] at h
    simp only at h
    exact absurd h.symm hres
  rw [h1, h2] at h
  simp only at h
  have hfmem : fromNode ∈ nodes := List.get?_mem h1
  have htmem : toNode ∈ nodes := List.get?_mem h2
  by_cases hne : fromNode.id ≠ toNode.id
  · rw [if_pos hne] at h
    by_cases hex : edgeExists edges fromNode.id toNode.id = true
    · rw [if_pos hex] at h
      exact ⟨edges, k + 2, h.symm, fun e he => he, fun e he => Or.inl he⟩
    · rw [if_neg hex] at h
      refine ⟨edges ++ [⟨fromNode.id, toNode.id, ⌊rnd (k + 2) * 15⌋ + 5⟩], k + 3,
        h.symm, fun e he => List.mem_append_left _ he, ?_⟩
      intro e he
      rcases List.mem_append.mp he with he | he
      · exact Or.inl he
      · rw [List.mem_singleton] at he
        subst he
        exact Or.inr ⟨hne, ⟨fromNode, hfmem, rfl⟩, ⟨toNode, htmem, rfl⟩,
          rnd (k + 2), (hr (k + 2)).1, (hr (k + 2)).2, rfl⟩
  · rw [if_neg hne] at h
    exact ⟨edges, k + 2, h.symm, fun e he => he, fun e he => Or.inl he⟩

theorem extraFold_sound (rnd : Nat → Rat) (nodes : List NetworkNode)
    (hr : ∀ i, 0 ≤ rnd i ∧ rnd i < 1) :
    ∀ (l : List Nat) (edges : List NetworkEdge) (k : Nat)
      (res : List NetworkEdge × Nat),
      l.foldl (extraStep rnd nodes) (some (edges, k)) = some res →
      (∀ e ∈ edges, e ∈ res.1) ∧
      ∀ e ∈ res.1, e ∈ edges ∨
        (e.«from» ≠ e.«to» ∧ (∃ n1 ∈ nodes, e.«from» = n1.id) ∧
          (∃ n2 ∈ nodes, e.«to» = n2.id) ∧
          ∃ r : Rat, 0 ≤ r ∧ r < 1 ∧ e.cost = ⌊r * 15⌋ + 5) := by
  intro l
  induction l with
  | nil =>
    intro edges k res h
    rw [List.foldl_nil] at h
    obtain rfl : (edges, k) = res := by simpa using h
    exact ⟨fun e he => he, fun e he => Or.inl he⟩
  | cons i l ih =>
    intro edges k res h
    rw [List.foldl_cons] at h
    rcases hstep : extraStep rnd nodes (some (edges, k)) i with _ | st1
    · rw [hstep, extraFold_none] at h
      exact absurd h (by simp)
    · obtain ⟨edges', k', hsome, hsub, hnew⟩ :=
        extraStep_some rnd nodes hr i hstep (by simp)
      obtain ⟨rfl, rfl⟩ : st1 = (edges', k') := by
        simpa using hsome
      rw [hstep] at h
      obtain ⟨ihsub, ihnew⟩ := ih edges' k' res h
      refine ⟨fun e he => ihsub e (hsub e he), ?_⟩
      intro e he
      rcases ihnew e he with he' | hprops
      · exact hnew e he'
      · exact Or.inr hprops

theorem extraFold_isSome (rnd : Nat → Rat) (nodes : List NetworkNode)
    (hr : ∀ i, 0 ≤ rnd i ∧ rnd i < 1) (hn : 1 ≤ nodes.length) :
    ∀ (l : List Nat) (edges : List NetworkEdge) (k : Nat),
      ∃ res, l.foldl (extraStep rnd nodes) (some (edges, k)) = some res := by
  intro l
  induction l with
  | nil => intro edges k; exact ⟨(edges, k), rfl⟩
  | cons i l ih =>
    intro edges k
    rw [List.foldl_cons]
    have hget : ∀ m : Nat, ∃ node,
        nodes.get? (⌊rnd m * (nodes.length : Rat)⌋).toNat = some node := by
      intro m
      obtain ⟨h0, hlt⟩ := floor_mul_nat_bound (hr m).1 (hr m).2 hn
      have hidx : (⌊rnd m * (nodes.length : Rat)⌋).toNat < nodes.length := by omega
      exact ⟨nodes.get ⟨_, hidx⟩, List.get?_eq_get hidx⟩
    obtain ⟨fromNode, hf⟩ := hget k
    obtain ⟨toNode, ht⟩ := hget (k + 1)
    have hstep : ∃ edges' k',
        extraStep rnd nodes (some (edges, k)) i = some (edges', k') := by
      rw [extraStep]
      rw [hf, ht]
      simp only
      by_cases hne : fromNode.id ≠ toNode.id
      · rw [if_pos hne]
        by_cases hex : edgeExists edges fromNode.id toNode.id = true
        · rw [if_pos hex]; exact ⟨edges, k + 2, rfl⟩
        · rw [if_neg hex]; exact ⟨_, k + 3, rfl⟩
      · rw [if_neg hne]; exact ⟨edges, k + 2, rfl⟩
    obtain ⟨edges', k', hstep⟩ := hstep
    rw [hstep]
    exact ih edges' k'

/-! ## List range facts -/

theorem range_drop_one (n : Nat) : (List.range n).drop 1 = List.range' 1 (n - 1) := by
  cases n with
  | zero => rfl
  | succ m =>
    rw [List.range_eq_range', List.range'_succ]
    simp

/-! ## Distinct node ids at distinct indices -/

theorem nodup_ids_getD_ne {nodes : List NetworkNode}
    (h : (nodes.map NetworkNode.id).Nodup) {i j : Nat}
    (hi : i < nodes.length) (hj : j < nodes.length) (hij : i ≠ j) :
    (nodes.getD i defaultNodeValue).id ≠ (nodes.getD j defaultNodeValue).id := by
  rw [List.getD_eq_get _ _ hi, List.getD_eq_get _ _ hj]
  intro heq
  have hmi : i < (nodes.map NetworkNode.id).length := by simpa using hi
  have hmj : j < (nodes.map NetworkNode.id).length := by simpa using hj
  have h1 : (nodes.map NetworkNode.id).get ⟨i, hmi⟩ =
      (nodes.map NetworkNode.id).get ⟨j, hmj⟩ := by
    rw [List.get_map, List.get_map]
    exact heq
  have := List.Nodup.get_inj_iff h |>.mp h1
  simp only [Fin.mk.injEq] at this
  exact hij this

/-! ## Walk lemmas -/

theorem joins_symm {e : NetworkEdge} {a b : String} (h : joins e a b) :
    joins e b a := by
  rcases h with ⟨h1, h2⟩ | ⟨h1, h2⟩
  · exact Or.inr ⟨h1, h2⟩
  · exact Or.inl ⟨h1, h2⟩

theorem Walk.mem_left {net : Network} {a b : String} {c : Int}
    (w : Walk net a b c) : a ∈ net.nodeIds := by
  cases w with
  | nil _ hu => exact hu
  | cons _ _ _ _ _ hu _ _ _ => exact hu

theorem Walk.mem_right {net : Network} {a b : String} {c : Int}
    (w : Walk net a b c) : b ∈ net.nodeIds := by
  induction w with
  | nil _ hu => exact hu
  | cons _ _ _ _ _ _ _ _ _ ih => exact ih

theorem Walk.snoc {net : Network} {a b : String} {c : Int}
    (w : Walk net a b c) {e : NetworkEdge} (he : e ∈ net.edges) {d : String}
    (hj : joins e b d) (hd : d ∈ net.nodeIds) : Walk net a d (c + e.cost) := by
  induction w with
  | nil u hu =>
    have := Walk.cons u d d 0 e hu he hj (Walk.nil d hd)
    simpa [add_comm] using this
  | cons u v w c' e' hu he' hj' tail ih =>
    have := Walk.cons u v d (c' + e.cost) e' hu he' hj' (ih hj)
    have harith : e'.cost + (c' + e.cost) = e'.cost + c' + e.cost := by ring
    rwa [harith] at this

theorem Walk.symm {net : Network} {a b : String} {c : Int}
    (w : Walk net a b c) : Walk net b a c := by
  induction w with
  | nil u hu => exact Walk.nil u hu
  | cons u v w c' e hu he hj tail ih =>
    have := ih.snoc he (joins_symm hj) hu
    simpa [add_comm] using this

theorem Walk.trans {net : Network} {a b d : String} {c c' : Int}
    (w1 : Walk net a b c) (w2 : Walk net b d c') : Walk net a d (c + c') := by
  induction w1 with
  | nil u hu => simpa using w2
  | cons u v w c0 e hu he hj tail ih =>
    have := Walk.cons u v d (c0 + c') e hu he hj (ih w2)
    have harith : e.cost + (c0 + c') = e.cost + c0 + c' := by ring
    rwa [harith] at this

theorem Walk.cost_nonneg {net : Network}
    (hc : ∀ e ∈ net.edges, 0 ≤ e.cost) {a b : String} {c : Int}
    (w : Walk net a b c) : 0 ≤ c := by
  induction w with
  | nil _ _ => exact le_rfl
  | cons u v w c' e hu he hj tail ih =>
    have := hc e he
    omega

/-! ## Whole-generator characterisation -/

theorem generateRandomNetwork_spec (rnd : Nat → Rat)
    (hr : ∀ i, 0 ≤ rnd i ∧ rnd i < 1) (n : Nat) (hn : 1 ≤ n) :
    ∃ (net : Network) (k1 k2 : Nat) (treeEdges : List NetworkEdge),
      generateRandomNetwork n rnd = some net ∧
      genNodesLoop rnd 0 n [] = (net.nodes, k1) ∧
      net.nodes.length = n ∧
      spanTree rnd net.nodes k1 = (treeEdges, k2) ∧
      (∀ e ∈ treeEdges, e ∈ net.edges) ∧
      ∀ e ∈ net.edges, e ∈ treeEdges ∨
        (e.«from» ≠ e.«to» ∧ (∃ n1 ∈ net.nodes, e.«from» = n1.id) ∧
          (∃ n2 ∈ net.nodes, e.«to» = n2.id) ∧
          ∃ r : Rat, 0 ≤ r ∧ r < 1 ∧ e.cost = ⌊r * 15⌋ + 5) := by
  obtain ⟨nodes, k1, hgen⟩ : ∃ nodes k1, genNodesLoop rnd 0 n [] = (nodes, k1) :=
    ⟨_, _, rfl⟩
  have hlen : nodes.length = n := by
    have := genNodesLoop_length rnd n 0 []
    rw [hgen] at this
    simpa using this
  obtain ⟨treeEdges, k2, hspan⟩ : ∃ t k2, spanTree rnd nodes k1 = (t, k2) :=
    ⟨_, _, rfl⟩
  obtain ⟨res, hfold⟩ := extraFold_isSome rnd nodes hr (by omega)
    (List.range ((⌊rnd k2 * 3⌋).toNat + 2)) treeEdges (k2 + 1)
  obtain ⟨hsub, hsound⟩ := extraFold_sound rnd nodes hr _ _ _ _ hfold
  refine ⟨⟨nodes, res.1⟩, k1, k2, treeEdges, ?_, hgen, hlen, hspan, hsub, hsound⟩
  rw [generateRandomNetwork, hgen]
  simp only
  rw [hspan]
  simp only
  rw [hfold]

/-! ## Claim C4 -/

/-- C4 amended: for every stream within the Math.random contract and every
nodeCount between 1 and the alphabet size 10, the generator succeeds with
exactly nodeCount nodes carrying pairwise distinct ids, the spanning-tree
step alone contributes exactly nodeCount - 1 edges, each joining the node of
index i (for every i from 1 to nodeCount - 1) to a node of strictly smaller
index, those edges all appear in the final graph, and the graph is
connected: every node id is joined to every other by a walk. -/
theorem claim_C4_generator_connected (rnd : Nat → Rat)
    (hr : ∀ i, 0 ≤ rnd i ∧ rnd i < 1) (n : Nat) (h1 : 1 ≤ n) (h10 : n ≤ 10) :
    ∃ net : Network, generateRandomNetwork n rnd = some net ∧
      net.nodes.length = n ∧ net.nodeIds.Nodup ∧
      (∃ (k1 k2 : Nat) (treeEdges : List NetworkEdge),
        genNodesLoop rnd 0 n [] = (net.nodes, k1) ∧
        spanTree rnd net.nodes k1 = (treeEdges, k2) ∧
        treeEdges.length = n - 1 ∧
        (∀ e ∈ treeEdges, e ∈ net.edges) ∧
        ∀ i, 1 ≤ i → i < n → ∃ j, j < i ∧ ∃ e ∈ treeEdges,
          e.«from» = (net.nodes.getD i defaultNodeValue).id ∧
          e.«to» = (net.nodes.getD j defaultNodeValue).id) ∧
      ∀ a ∈ net.nodeIds, ∀ b ∈ net.nodeIds, ∃ c : Int, Walk net a b c := by
  obtain ⟨net, k1, k2, treeEdges, hnet, hgen, hlen, hspan, hsub, hsound⟩ :=
    generateRandomNetwork_spec rnd hr n h1
  have hids : net.nodeIds = labels.take n := by
    have := genNodesLoop_ids rnd n 0 []
    rw [hgen] at this
    simp only [List.map_nil, List.length_nil, List.nil_append] at this
    rw [Network.nodeIds, this, range_map_labelAt n h10]
  have hnodup : net.nodeIds.Nodup := by rw [hids]; exact labels_take_nodup n
  have hrange : (List.range net.nodes.length).drop 1 = List.range' 1 (n - 1) := by
    rw [hlen, range_drop_one]
  have htreelen : treeEdges.length = n - 1 := by
    have hspan' := hspan
    rw [spanTree, hrange] at hspan'
    have := spanFold_length rnd net.nodes (List.range' 1 (n - 1)) ([], k1)
    rw [hspan'] at this
    simp only [List.length_nil, Nat.zero_add, List.length_range'] at this
    omega
  have hcovers : ∀ i, 1 ≤ i → i < n → ∃ j, j < i ∧ ∃ e ∈ treeEdges,
      e.«from» = (net.nodes.getD i defaultNodeValue).id ∧
      e.«to» = (net.nodes.getD j defaultNodeValue).id := by
    intro i hi1 hin
    have hmem : i ∈ List.range' 1 (n - 1) := by
      rw [List.mem_range']
      exact ⟨i - 1, by omega, by omega⟩
    obtain ⟨j, hj, e, he, hfrom, hto⟩ :=
      spanFold_covers rnd net.nodes hr (List.range' 1 (n - 1)) ([], k1) i hmem hi1
    refine ⟨j, hj, e, ?_, hfrom, hto⟩
    have hspan' := hspan
    rw [spanTree, hrange] at hspan'
    rw [hspan'] at he
    exact he
  have hid_mem : ∀ i, i < n → (net.nodes.getD i defaultNodeValue).id ∈ net.nodeIds := by
    intro i hi
    rw [List.getD_eq_getElem _ _ (by omega : i < net.nodes.length)]
    exact List.mem_map_of_mem NetworkNode.id (net.nodes.getElem_mem _)
  have hreach0 : ∀ i, i < n → ∃ c : Int,
      Walk net ((net.nodes.getD 0 defaultNodeValue).id)
        ((net.nodes.getD i defaultNodeValue).id) c := by
    intro i
    induction i using Nat.strong_induction_on with
    | _ i ih =>
      intro hin
      cases Nat.eq_zero_or_pos i with
      | inl h0 =>
        subst h0
        exact ⟨0, Walk.nil _ (hid_mem 0 (by omega))⟩
      | inr hpos =>
        obtain ⟨j, hj, e, he, hfrom, hto⟩ := hcovers i hpos hin
        obtain ⟨c, hw⟩ := ih j (by omega) (by omega)
        refine ⟨c + e.cost, hw.snoc (hsub e he) ?_ (hid_mem i hin)⟩
        exact Or.inr ⟨hfrom, hto⟩
  have hconn : ∀ a ∈ net.nodeIds, ∀ b ∈ net.nodeIds, ∃ c : Int, Walk net a b c := by
    intro a ha b hb
    have hix : ∀ x ∈ net.nodeIds, ∃ i, i < n ∧
        x = (net.nodes.getD i defaultNodeValue).id := by
      intro x hx
      rw [Network.nodeIds, List.mem_map] at hx
      obtain ⟨node, hnode, rfl⟩ := hx
      obtain ⟨i, hi, rfl⟩ := List.mem_iff_getElem.mp hnode
      exact ⟨i, by omega, by rw [List.getD_eq_getElem _ _ hi]⟩
    obtain ⟨ia, hia, rfl⟩ := hix a ha
    obtain ⟨ib, hib, rfl⟩ := hix b hb
    obtain ⟨ca, hwa⟩ := hreach0 ia hia
    obtain ⟨cb, hwb⟩ := hreach0 ib hib
    exact ⟨ca + cb, hwa.symm.trans hwb⟩
  exact ⟨net, hnet, hlen, hnodup, ⟨k1, k2, treeEdges, hgen, hspan, htreelen,
    hsub, hcovers⟩, hconn⟩

set_option maxRecDepth 10000 in
/-- C4 is false as stated: the source never caps nodeCount at the alphabet
size. With 11 requested nodes the generated graph has 11 nodes (the eleventh
gets the out-of-alphabet label), not the capped 10 the claim describes. -/
theorem claim_C4_counterexample :
    (generateRandomNetwork 11 rGrid).map (fun net => net.nodes.length) =
      some 11 ∧ min 11 labels.length = 10 ∧ (11 : Nat) ≠ 10 := by
  refine ⟨by decide, by decide, by decide⟩

/-- Witness for the amended C4 with the constant one-half stream and three
nodes. -/
theorem claim_C4_witness :
    (∀ i, 0 ≤ rHalf i ∧ rHalf i < 1) ∧
    (∃ net : Network, generateRandomNetwork 3 rHalf = some net ∧
      net.nodes.length = 3 ∧ net.nodeIds.Nodup ∧
      (∃ (k1 k2 : Nat) (treeEdges : List NetworkEdge),
        genNodesLoop rHalf 0 3 [] = (net.nodes, k1) ∧
        spanTree rHalf net.nodes k1 = (treeEdges, k2) ∧
        treeEdges.length = 3 - 1 ∧
        (∀ e ∈ treeEdges, e ∈ net.edges) ∧
        ∀ i, 1 ≤ i → i < 3 → ∃ j, j < i ∧ ∃ e ∈ treeEdges,
          e.«from» = (net.nodes.getD i defaultNodeValue).id ∧
          e.«to» = (net.nodes.getD j defaultNodeValue).id) ∧
      ∀ a ∈ net.nodeIds, ∀ b ∈ net.nodeIds, ∃ c : Int, Walk net a b c) :=
  ⟨rHalf_mem,
    claim_C4_generator_connected rHalf rHalf_mem 3 (by omega) (by omega)⟩

/-! ## Claim C8 -/

/-- C8 amended: for a stream within the Math.random contract and a nodeCount
within the label alphabet, every edge of the generated graph has an integer
cost between 5 and 19 and is not a self-loop. -/
theorem claim_C8_edge_bounds (rnd : Nat → Rat)
    (hr : ∀ i, 0 ≤ rnd i ∧ rnd i < 1) (n : Nat) (h1 : 1 ≤ n) (h10 : n ≤ 10)
    (net : Network) (hnet : generateRandomNetwork n rnd = some net) :
    ∀ e ∈ net.edges, (5 ≤ e.cost ∧ e.cost ≤ 19) ∧ e.«from» ≠ e.«to» := by
  obtain ⟨net', k1, k2, treeEdges, hnet', hgen, hlen, hspan, hsub, hsound⟩ :=
    generateRandomNetwork_spec rnd hr n h1
  have hEq : net' = net := Option.some.inj (hnet'.symm.trans hnet)
  rw [hEq] at hgen hlen hspan hsub hsound
  have hids : net.nodeIds = labels.take n := by
    have := genNodesLoop_ids rnd n 0 []
    rw [hgen] at this
    simp only [List.map_nil, List.length_nil, List.nil_append] at this
    rw [Network.nodeIds, this, range_map_labelAt n h10]
  have hnodup : (net.nodes.map NetworkNode.id).Nodup := by
    have : net.nodeIds.Nodup := by rw [hids]; exact labels_take_nodup n
    exact this
  intro e he
  rcases hsound e he with htree | ⟨hne, -, -, r, hr0, hr1, hcost⟩
  · have hspan' := hspan
    rw [spanTree, hlen, range_drop_one] at hspan'
    have hmem := spanFold_mem rnd net.nodes hr (List.range' 1 (n - 1)) ([], k1)
      (fun i hi => by
        rw [List.mem_range'] at hi
        obtain ⟨t, -, rfl⟩ := hi
        omega) e (by rw [hspan']; exact htree)
    rcases hmem with habs | ⟨i, j, hji, hil, hfrom, hto, r, hr0, hr1, hcost⟩
    · exact absurd habs (List.not_mem_nil e)
    · have hi : i < net.nodes.length := by
        rw [List.mem_range'] at hil
        obtain ⟨t, ht, rfl⟩ := hil
        omega
      have hcostb := cost_floor_bound hr0 hr1
      refine ⟨by omega, ?_⟩
      rw [hfrom, hto]
      exact nodup_ids_getD_ne hnodup hi (by omega) (by omega)
  · have hcostb := cost_floor_bound hr0 hr1
    exact ⟨by omega, hne⟩

set_option maxRecDepth 10000 in
/-- C8 is false as stated: with 12 requested nodes the two extra nodes both
carry the out-of-alphabet label, and a spanning-tree draw that picks node 10
as the parent of node 11 produces an edge whose two endpoint ids are equal,
a self-loop. -/
theorem claim_C8_counterexample :
    (generateRandomNetwork 12 rC8stream).map
      (fun net => net.edges.any (fun e => e.«from» == e.«to»)) = some true := by
  decide

set_option maxRecDepth 4000 in
/-- Witness for the amended C8: the first edge of the concrete three-node
grid network has cost in bounds and distinct endpoints. -/
theorem claim_C8_witness :
    (5 ≤ (NetworkEdge.mk "B" "A" 5).cost ∧ (NetworkEdge.mk "B" "A" 5).cost ≤ 19) ∧
    (NetworkEdge.mk "B" "A" 5).«from» ≠ (NetworkEdge.mk "B" "A" 5).«to» :=
  claim_C8_edge_bounds rGrid rGrid_mem 3 (by omega) (by omega)
    (Network.mk
      [ ⟨"A", "A", 100, 80, "router"⟩
      , ⟨"B", "B", 650/3, 80, "router"⟩
      , ⟨"C", "C", 1000/3, 80, "router"⟩ ]
      [ ⟨"B", "A", 5⟩, ⟨"C", "B", 5⟩ ])
    (by decide) ⟨"B", "A", 5⟩ (by decide)

/-! ## Claim C9 -/

/-- C9: the node placement loop always terminates within 100 attempts, two
stream draws per attempt: there is an attempt count m between 1 and 100 such
that the loop returns the m-th candidate having consumed exactly 2m draws,
the returned candidate is either valid or the last of the 100 attempts, and
every earlier candidate was invalid; consequently, for every stream within
the Math.random contract and every nodeCount of at least 1, the whole
generator returns a graph. -/
theorem claim_C9_bounded_retry :
    (∀ (rnd : Nat → Rat) (nodes : List NetworkNode) (k : Nat),
      ∃ m, 1 ≤ m ∧ m ≤ 100 ∧
        placeLoop rnd nodes k 100 (0, 0) =
          (candidateAt rnd (k + 2 * (m - 1)), k + 2 * m) ∧
        (validPosition nodes (candidateAt rnd (k + 2 * (m - 1))).1
            (candidateAt rnd (k + 2 * (m - 1))).2 = true ∨ m = 100) ∧
        ∀ t, t + 1 < m →
          validPosition nodes (candidateAt rnd (k + 2 * t)).1
            (candidateAt rnd (k + 2 * t)).2 = false) ∧
    ∀ (rnd : Nat → Rat), (∀ i, 0 ≤ rnd i ∧ rnd i < 1) → ∀ n, 1 ≤ n →
      ∃ net, generateRandomNetwork n rnd = some net := by
  constructor
  · intro rnd nodes k
    exact placeLoop_spec rnd nodes 100 (by omega) k (0, 0)
  · intro rnd hr n hn
    obtain ⟨net, -, -, -, hnet, -⟩ := generateRandomNetwork_spec rnd hr n hn
    exact ⟨net, hnet⟩

/-- C9 is false in its final universal clause: with zero requested nodes the
extra-edge loop indexes an empty node array and dereferences the id field of
undefined, an uncaught TypeError rather than a returned graph. -/
theorem claim_C9_counterexample :
    generateRandomNetwork 0 rHalf = none := by
  decide

/-- Witness for C9: the placement part on the empty node list (first
candidate valid), and the whole-generator part at one node. -/
theorem claim_C9_witness :
    (∃ m, 1 ≤ m ∧ m ≤ 100 ∧
        placeLoop rHalf [] 0 100 (0, 0) =
          (candidateAt rHalf (0 + 2 * (m - 1)), 0 + 2 * m) ∧
        (validPosition [] (candidateAt rHalf (0 + 2 * (m - 1))).1
            (candidateAt rHalf (0 + 2 * (m - 1))).2 = true ∨ m = 100) ∧
        ∀ t, t + 1 < m →
          validPosition [] (candidateAt rHalf (0 + 2 * t)).1
            (candidateAt rHalf (0 + 2 * t)).2 = false) ∧
    ∃ net, generateRandomNetwork 1 rHalf = some net :=
  ⟨claim_C9_bounded_retry.1 rHalf [] 0,
    claim_C9_bounded_retry.2 rHalf rHalf_mem 1 (by omega)⟩

/-! ## Relaxation characterisation -/


theorem relaxDir_fst_c {c : String} {U : List String} (hc : c ∉ U)
    (nb : String) (cost : Int) (dp : DijkState) :
    (relaxDir c U nb cost dp).1 c = dp.1 c := by
  rw [relaxDir]
  split_ifs with h1 h2
  · have hne : c ≠ nb := fun h => hc (h ▸ h1)
    simp [updMap, hne]
  · rfl
  · rfl

theorem relaxDir_not_mem {c : String} {U : List String} {v : String}
    (hv : v ∉ U) (nb : String) (cost : Int) (dp : DijkState) :
    (relaxDir c U nb cost dp).1 v = dp.1 v ∧
    (relaxDir c U nb cost dp).2 v = dp.2 v := by
  rw [relaxDir]
  split_ifs with h1 h2
  · have hne : v ≠ nb := fun h => hv (h ▸ h1)
    simp [updMap, hne]
  · exact ⟨rfl, rfl⟩
  · exact ⟨rfl, rfl⟩

theorem relaxDir_le {c : String} {U : List String} (v nb : String)
    (cost : Int) (dp : DijkState) :
    (relaxDir c U nb cost dp).1 v ≤ dp.1 v := by
  rw [relaxDir]
  split_ifs with h1 h2
  · by_cases hv : v = nb
    · subst hv
      simp only [updMap, if_pos rfl]
      exact h2.le
    · simp [updMap, hv]
  · exact le_rfl
  · exact le_rfl

theorem relaxDir_cases {c : String} {U : List String} (v nb : String)
    (cost : Int) (dp : DijkState) :
    ((relaxDir c U nb cost dp).1 v = dp.1 v ∧
      (relaxDir c U nb cost dp).2 v = dp.2 v) ∨
    (v ∈ U ∧ v = nb ∧
      (relaxDir c U nb cost dp).1 v = dp.1 c + (cost : WithTop Int) ∧
      (relaxDir c U nb cost dp).1 v < dp.1 v ∧
      (relaxDir c U nb cost dp).2 v = some (some c)) := by
  rw [relaxDir]
  split_ifs with h1 h2
  · by_cases hv : v = nb
    · subst hv
      right
      refine ⟨h1, rfl, ?_, ?_, ?_⟩ <;> simp [updMap, h2]
    · left
      simp [updMap, hv]
  · exact Or.inl ⟨rfl, rfl⟩
  · exact Or.inl ⟨rfl, rfl⟩

theorem relaxDir_bound {c : String} {U : List String} {nb : String}
    (hnb : nb ∈ U) (cost : Int) (dp : DijkState) :
    (relaxDir c U nb cost dp).1 nb ≤ dp.1 c + (cost : WithTop Int) := by
  rw [relaxDir, if_pos hnb]
  split_ifs with h2
  · simp [updMap]
  · exact not_lt.mp h2

theorem relaxStep_eq (c : String) (U : List String) (dp : DijkState)
    (e : NetworkEdge) :
    relaxStep c U dp e =
      (if e.«to» = c then
        relaxDir c U e.«from» e.cost
          (if e.«from» = c then relaxDir c U e.«to» e.cost dp else dp)
      else if e.«from» = c then relaxDir c U e.«to» e.cost dp else dp) := rfl

theorem relaxStep_fst_c {c : String} {U : List String} (hc : c ∉ U)
    (dp : DijkState) (e : NetworkEdge) :
    (relaxStep c U dp e).1 c = dp.1 c := by
  rw [relaxStep_eq]
  by_cases h1 : e.«from» = c <;> by_cases h2 : e.«to» = c <;>
    simp only [if_pos, if_neg, h1, h2, if_true, if_false, reduceIte] <;>
    simp only [relaxDir_fst_c hc]

theorem relaxStep_not_mem {c : String} {U : List String} {v : String}
    (hv : v ∉ U) (dp : DijkState) (e : NetworkEdge) :
    (relaxStep c U dp e).1 v = dp.1 v ∧
    (relaxStep c U dp e).2 v = dp.2 v := by
  rw [relaxStep_eq]
  by_cases h1 : e.«from» = c <;> by_cases h2 : e.«to» = c <;>
    simp only [h1, h2, if_true, if_false, reduceIte]
  · exact ⟨(relaxDir_not_mem hv _ _ _).1.trans (relaxDir_not_mem hv _ _ _).1,
      (relaxDir_not_mem hv _ _ _).2.trans (relaxDir_not_mem hv _ _ _).2⟩
  · exact relaxDir_not_mem hv _ _ _
  · exact relaxDir_not_mem hv _ _ _
  · trivial

theorem relaxStep_le {c : String} {U : List String} (v : String)
    (dp : DijkState) (e : NetworkEdge) :
    (relaxStep c U dp e).1 v ≤ dp.1 v := by
  rw [relaxStep_eq]
  by_cases h1 : e.«from» = c <;> by_cases h2 : e.«to» = c <;>
    simp only [h1, h2, if_true, if_false, reduceIte]
  · exact (relaxDir_le v _ _ _).trans (relaxDir_le v _ _ _)
  · exact relaxDir_le v _ _ _
  · exact relaxDir_le v _ _ _
  · exact le_rfl

theorem relaxStep_cases {c : String} {U : List String} (hc : c ∉ U)
    (v : String) (dp : DijkState) (e : NetworkEdge) :
    ((relaxStep c U dp e).1 v = dp.1 v ∧ (relaxStep c U dp e).2 v = dp.2 v) ∨
    (v ∈ U ∧ joins e c v ∧
      (relaxStep c U dp e).1 v = dp.1 c + (e.cost : WithTop Int) ∧
      (relaxStep c U dp e).1 v < dp.1 v ∧
      (relaxStep c U dp e).2 v = some (some c)) := by
  rw [relaxStep_eq]
  by_cases h1 : e.«from» = c <;> by_cases h2 : e.«to» = c
  · rw [if_pos h2, if_pos h1]
    have hc1 : (relaxDir c U e.«to» e.cost dp).1 c = dp.1 c := relaxDir_fst_c hc _ _ _
    rcases relaxDir_cases (c := c) (U := U) v e.«from» e.cost
        (relaxDir c U e.«to» e.cost dp) with
      ⟨hu1, hu2⟩ | ⟨hvU, hveq, heq, hlt, hprev⟩
    · rcases relaxDir_cases (c := c) (U := U) v e.«to» e.cost dp with
        ⟨hw1, hw2⟩ | ⟨hvU, hveq, heq, hlt, hprev⟩
      · exact Or.inl ⟨hu1.trans hw1, hu2.trans hw2⟩
      · refine Or.inr ⟨hvU, Or.inl ⟨h1, hveq.symm⟩, hu1.trans heq, ?_, hu2.trans hprev⟩
        rw [hu1]
        exact hlt
    · refine Or.inr ⟨hvU, Or.inr ⟨hveq.symm, h2⟩, ?_, ?_, hprev⟩
      · rw [heq, hc1]
      · exact lt_of_lt_of_le hlt (relaxDir_le _ _ _ _)
  · rw [if_neg h2, if_pos h1]
    rcases relaxDir_cases (c := c) (U := U) v e.«to» e.cost dp with
      ⟨hw1, hw2⟩ | ⟨hvU, hveq, heq, hlt, hprev⟩
    · exact Or.inl ⟨hw1, hw2⟩
    · exact Or.inr ⟨hvU, Or.inl ⟨h1, hveq.symm⟩, heq, hlt, hprev⟩
  · rw [if_pos h2, if_neg h1]
    rcases relaxDir_cases (c := c) (U := U) v e.«from» e.cost dp with
      ⟨hw1, hw2⟩ | ⟨hvU, hveq, heq, hlt, hprev⟩
    · exact Or.inl ⟨hw1, hw2⟩
    · exact Or.inr ⟨hvU, Or.inr ⟨hveq.symm, h2⟩, heq, hlt, hprev⟩
  · rw [if_neg h2, if_neg h1]
    exact Or.inl ⟨rfl, rfl⟩

theorem relaxStep_bound {c : String} {U : List String} (hc : c ∉ U)
    {v : String} (hv : v ∈ U) (dp : DijkState) (e : NetworkEdge)
    (hj : joins e c v) :
    (relaxStep c U dp e).1 v ≤ dp.1 c + (e.cost : WithTop Int) := by
  rw [relaxStep_eq]
  rcases hj with ⟨hf, ht⟩ | ⟨hf, ht⟩
  · subst ht
    by_cases h2 : e.«to» = c
    · exact absurd (h2 ▸ hv) hc
    · rw [if_neg h2, if_pos hf]
      exact relaxDir_bound hv _ _
  · subst hf
    rw [if_pos ht]
    have hb := relaxDir_bound (c := c) hv e.cost
      (if e.«from» = c then relaxDir c U e.«to» e.cost dp else dp)
    by_cases h1 : e.«from» = c
    · rw [if_pos h1] at hb ⊢
      rwa [relaxDir_fst_c hc] at hb
    · rw [if_neg h1] at hb ⊢
      exact hb

theorem relaxAll_fst_c {c : String} {U : List String} (hc : c ∉ U) :
    ∀ (edges : List NetworkEdge) (dp : DijkState),
      (relaxAll edges c U dp).1 c = dp.1 c := by
  intro edges
  induction edges with
  | nil => intro dp; rfl
  | cons e edges ih =>
    intro dp
    simp only [relaxAll, List.foldl_cons] at ih ⊢
    rw [ih (relaxStep c U dp e)]
    exact relaxStep_fst_c hc dp e

theorem relaxAll_not_mem {c : String} {U : List String} {v : String}
    (hv : v ∉ U) :
    ∀ (edges : List NetworkEdge) (dp : DijkState),
      (relaxAll edges c U dp).1 v = dp.1 v ∧
      (relaxAll edges c U dp).2 v = dp.2 v := by
  intro edges
  induction edges with
  | nil => intro dp; exact ⟨rfl, rfl⟩
  | cons e edges ih =>
    intro dp
    simp only [relaxAll, List.foldl_cons] at ih ⊢
    obtain ⟨ih1, ih2⟩ := ih (relaxStep c U dp e)
    obtain ⟨hs1, hs2⟩ := relaxStep_not_mem hv dp e
    exact ⟨ih1.trans hs1, ih2.trans hs2⟩

theorem relaxAll_le {c : String} {U : List String} (v : String) :
    ∀ (edges : List NetworkEdge) (dp : DijkState),
      (relaxAll edges c U dp).1 v ≤ dp.1 v := by
  intro edges
  induction edges with
  | nil => intro dp; exact le_rfl
  | cons e edges ih =>
    intro dp
    simp only [relaxAll, List.foldl_cons] at ih ⊢
    exact (ih (relaxStep c U dp e)).trans (relaxStep_le v dp e)

theorem relaxAll_cases {c : String} {U : List String} (hc : c ∉ U)
    (v : String) :
    ∀ (edges : List NetworkEdge) (dp : DijkState),
      ((relaxAll edges c U dp).1 v = dp.1 v ∧
        (relaxAll edges c U dp).2 v = dp.2 v) ∨
      (v ∈ U ∧ ∃ e ∈ edges, joins e c v ∧
        (relaxAll edges c U dp).1 v = dp.1 c + (e.cost : WithTop Int) ∧
        (relaxAll edges c U dp).1 v < dp.1 v ∧
        (relaxAll edges c U dp).2 v = some (some c)) := by
  intro edges
  induction edges with
  | nil => intro dp; exact Or.inl ⟨rfl, rfl⟩
  | cons e edges ih =>
    intro dp
    simp only [relaxAll, List.foldl_cons] at ih ⊢
    have hc1 : (relaxStep c U dp e).1 c = dp.1 c := relaxStep_fst_c hc dp e
    rcases ih (relaxStep c U dp e) with ⟨ih1, ih2⟩ |
        ⟨hvU, e', he', hj, heq, hlt, hprev⟩
    · rcases relaxStep_cases hc v dp e with ⟨hs1, hs2⟩ |
          ⟨hvU, hj, heq, hlt, hprev⟩
      · exact Or.inl ⟨ih1.trans hs1, ih2.trans hs2⟩
      · refine Or.inr ⟨hvU, e, List.mem_cons_self e edges, hj, ih1.trans heq, ?_,
          ih2.trans hprev⟩
        rw [ih1]
        exact hlt
    · refine Or.inr ⟨hvU, e', List.mem_cons_of_mem e he', hj, ?_, ?_, hprev⟩
      · rw [heq, hc1]
      · exact lt_of_lt_of_le hlt (relaxStep_le v dp e)

theorem relaxAll_bound {c : String} {U : List String} (hc : c ∉ U)
    {v : String} (hv : v ∈ U) :
    ∀ (edges : List NetworkEdge) (dp : DijkState) (e : NetworkEdge),
      e ∈ edges → joins e c v →
      (relaxAll edges c U dp).1 v ≤ dp.1 c + (e.cost : WithTop Int) := by
  intro edges
  induction edges with
  | nil => intro dp e he; exact absurd he (List.not_mem_nil e)
  | cons e0 edges ih =>
    intro dp e he hj
    simp only [relaxAll, List.foldl_cons] at ih ⊢
    have hc1 : (relaxStep c U dp e0).1 c = dp.1 c := relaxStep_fst_c hc dp e0
    rcases List.mem_cons.mp he with rfl | he
    · have hb := relaxStep_bound hc hv dp e hj
      have hle : (List.foldl (relaxStep c U) (relaxStep c U dp e) edges).1 v ≤
          (relaxStep c U dp e).1 v := relaxAll_le v edges (relaxStep c U dp e)
      exact hle.trans hb
    · have := ih (relaxStep c U dp e0) e he hj
      rwa [hc1] at this

/-! ## Segment chain and lookup facts -/

theorem segsCost_eq_sum : ∀ (segs : List PathSegment),
    segsCost segs = (segs.map (fun g => g.edge.cost)).sum := by
  have haux : ∀ (l : List PathSegment) (init : Int),
      l.foldl (fun sum seg => sum + seg.edge.cost) init =
        init + (l.map (fun g => g.edge.cost)).sum := by
    intro l
    induction l with
    | nil => intro init; simp
    | cons g l ih =>
      intro init
      rw [List.foldl_cons, ih]
      simp
      ring
  intro segs
  rw [segsCost, haux]
  simp

theorem SegsChain_append_single {a b : String} :
    ∀ (l : List PathSegment), SegsChain a l b →
      ∀ (g : PathSegment), g.«from».id = b → SegsChain a (l ++ [g]) g.«to».id := by
  intro l
  induction l generalizing a with
  | nil =>
    intro hl g hg
    rw [SegsChain] at hl
    subst hl
    exact ⟨hg, rfl⟩
  | cons g0 l ih =>
    intro hl g hg
    obtain ⟨h1, h2⟩ := hl
    exact ⟨h1, ih h2 g hg⟩

theorem SegsChain_getLast : ∀ (l : List PathSegment) (a b : String),
    SegsChain a l b → ∀ g, l.getLast? = some g → g.«to».id = b := by
  intro l
  induction l with
  | nil => intro a b _ g hg; exact absurd hg (by simp)
  | cons g0 l ih =>
    intro a b hl g hg
    obtain ⟨h1, h2⟩ := hl
    cases l with
    | nil =>
      rw [SegsChain] at h2
      simp only [List.getLast?_singleton, Option.some.injEq] at hg
      subst hg
      exact h2
    | cons g1 l =>
      rw [List.getLast?_cons_cons] at hg
      exact ih _ _ h2 g hg

theorem findNodeById_spec {nodes : List NetworkNode} {id : String}
    (h : id ∈ nodes.map NetworkNode.id) :
    (findNodeById nodes id).id = id ∧ findNodeById nodes id ∈ nodes := by
  rw [List.mem_map] at h
  obtain ⟨n0, hn0, hid⟩ := h
  rw [findNodeById]
  rcases hfind : nodes.find? (fun n => n.id == id) with _ | n1
  · rw [List.find?_eq_none] at hfind
    exact absurd (by simpa using hid) (hfind n0 hn0)
  · have hp := List.find?_some hfind
    have hmem := List.mem_of_find?_eq_some hfind
    rw [hfind]
    simp only [Option.getD_some]
    simp only [beq_iff_eq] at hp
    exact ⟨hp, hmem⟩

theorem findEdgeBetween_exists {edges : List NetworkEdge} {p q : String}
    {e0 : NetworkEdge} (he0 : e0 ∈ edges) (hj : joins e0 q p) :
    ∃ e1, findEdgeBetween edges q p = some e1 ∧ e1 ∈ edges ∧ joins e1 q p := by
  rcases hfind : findEdgeBetween edges q p with _ | e1
  · rw [findEdgeBetween, List.find?_eq_none] at hfind
    have := hfind e0 he0
    rcases hj with ⟨h1, h2⟩ | ⟨h1, h2⟩ <;> simp [h1, h2] at this
  · have hp := List.find?_some hfind
    have hmem := List.mem_of_find?_eq_some hfind
    refine ⟨e1, rfl, hmem, ?_⟩
    simp only [Bool.or_eq_true, Bool.and_eq_true, beq_iff_eq] at hp
    rcases hp with ⟨h1, h2⟩ | ⟨h1, h2⟩
    · exact Or.inl ⟨h1, h2⟩
    · exact Or.inr ⟨h2, h1⟩

theorem nodup_subset_length {l₁ l₂ : List String} (h : l₁.Nodup)
    (hs : l₁ ⊆ l₂) : l₁.length ≤ l₂.length := by
  classical
  calc l₁.length = l₁.toFinset.card := (List.toFinset_card_of_nodup h).symm
    _ ≤ l₂.toFinset.card := Finset.card_le_card (by
        intro x hx
        rw [List.mem_toFinset] at hx ⊢
        exact hs hx)
    _ ≤ l₂.length := l₂.toFinset_card_le

/-! ## The selection lemma: a newly selected minimum is optimal -/

theorem dk_selection {net : Network} {s : String} {U L : List String}
    {dist : String → WithTop Int} {prev : String → Option (Option String)}
    (inv : LoopInv net s U L dist prev)
    (hedge : ∀ e ∈ net.edges, 0 ≤ e.cost) :
    ∀ (v z : String) (cost : Int), Walk net v z cost → z ∈ U →
      (∀ x ∈ U, dist z ≤ dist x) →
      dist z ≤ dist v + (cost : WithTop Int) := by
  intro v z cost w
  induction w with
  | nil x hx =>
    intro hzU hzmin
    rw [WithTop.coe_zero, add_zero]
  | cons x y z' c e hx he hj tail ih =>
    intro hzU hzmin
    have hx' : x ∈ U ∨ x ∈ L := by
      by_cases hL : x ∈ L
      · exact Or.inr hL
      · exact Or.inl ((inv.hids x).mpr ⟨hx, hL⟩)
    rcases hx' with hxU | hxL
    · have hcost : (0 : Int) ≤ e.cost + c := by
        have h1 := hedge e he
        have h2 : (0 : Int) ≤ c := tail.cost_nonneg hedge
        omega
      calc dist z' ≤ dist x := hzmin x hxU
        _ ≤ dist x + ((e.cost + c : Int) : WithTop Int) := by
            apply le_add_of_nonneg_right
            exact_mod_cast hcost
    · have hy : y ∈ net.nodeIds := tail.mem_left
      have hfr := inv.hfront x hxL y hy e he hj
      calc dist z' ≤ dist y + (c : WithTop Int) := ih hzU hzmin
        _ ≤ (dist x + (e.cost : WithTop Int)) + (c : WithTop Int) :=
            add_le_add_right hfr _
        _ = dist x + ((e.cost + c : Int) : WithTop Int) := by
            push_cast
            rw [add_assoc]

/-! ## While the destination is reachable, some unvisited distance is finite -/

theorem dk_exists_finite {net : Network} {s : String} {U L : List String}
    {dist : String → WithTop Int} {prev : String → Option (Option String)}
    (inv : LoopInv net s U L dist prev) :
    ∀ (v z : String) (cost : Int), Walk net v z cost →
      z ∈ U → (v ∈ L ∨ (v ∈ U ∧ dist v ≠ ⊤)) →
      ∃ x ∈ U, dist x ≠ ⊤ := by
  intro v z cost w
  induction w with
  | nil x hx =>
    intro hzU hv
    rcases hv with hL | ⟨hU, hfin⟩
    · exact absurd hL (((inv.hids x).mp hzU).2)
    · exact ⟨x, hU, hfin⟩
  | cons x y z' c e hx he hj tail ih =>
    intro hzU hv
    rcases hv with hxL | ⟨hxU, hxfin⟩
    · have hy : y ∈ net.nodeIds := tail.mem_left
      by_cases hyL : y ∈ L
      · exact ih hzU (Or.inl hyL)
      · have hyU : y ∈ U := (inv.hids y).mpr ⟨hy, hyL⟩
        refine ⟨y, hyU, ?_⟩
        have hfr := inv.hfront x hxL y hy e he hj
        have hxfin := inv.hLfin x hxL
        intro htop
        rw [htop] at hfr
        have : dist x + ((e.cost : Int) : WithTop Int) < ⊤ := by
          rcases WithTop.ne_top_iff_exists.mp hxfin with ⟨dx, hdx⟩
          rw [← hdx, ← WithTop.coe_add]
          exact WithTop.coe_lt_top _
        exact absurd (top_le_iff.mp hfr) (by
          intro habs
          rw [habs] at this
          exact lt_irrefl ⊤ this)
    · exact ⟨x, hxU, hxfin⟩

/-! ## The invariant holds initially -/

theorem dk_init {net : Network} {s : String}
    (hnodup : net.nodeIds.Nodup) (hs : s ∈ net.nodeIds) :
    LoopInv net s net.nodeIds [] (initDist net s) (initPrev net) := by
  refine ⟨?_, ?_, ?_, ?_, ?_, ?_, ?_, ?_, ?_, ?_, ?_, ?_, ?_, ?_, ?_, ?_⟩
  · intro x
    simp
  · intro x hx
    exact absurd hx (List.not_mem_nil x)
  · exact hnodup
  · exact List.nodup_nil
  · simp [initDist, hs]
  · intro v
    rw [initDist]
    split_ifs
    · exact le_rfl
    · exact le_top
    · exact le_top
  · intro w hw
    exact absurd hw (List.not_mem_nil w)
  · intro w hw
    exact absurd hw (List.not_mem_nil w)
  · intro v c hvc
    rw [initDist] at hvc
    by_cases hv : v ∈ net.nodeIds
    · rw [if_pos hv] at hvc
      by_cases hvs : v = s
      · subst hvs
        rw [if_pos rfl] at hvc
        have hc : c = 0 := by exact_mod_cast hvc.symm
        subst hc
        exact Walk.nil v hv
      · rw [if_neg hvs] at hvc
        exact absurd hvc.symm (by simp)
    · rw [if_neg hv] at hvc
      exact absurd hvc.symm (by simp)
  · intro v hv
    rw [initDist, initPrev, if_neg hv, if_neg hv]
    exact ⟨rfl, rfl⟩
  · intro v hv
    rw [initPrev, if_pos hv]
    simp
  · intro v hv hvs hp
    rw [initDist, if_pos hv, if_neg hvs]
  · rw [initPrev, if_pos hs]
  · intro v p hp
    rw [initPrev] at hp
    split_ifs at hp <;> simp at hp
  · intro v p hp hv
    exact absurd hv (List.not_mem_nil v)
  · intro w hw
    exact absurd hw (List.not_mem_nil w)

/-! ## One settle-and-relax step preserves the invariant -/

theorem dk_step {net : Network} {s : String} {U L : List String}
    {dist : String → WithTop Int} {prev : String → Option (Option String)}
    (inv : LoopInv net s U L dist prev)
    (hedge : ∀ e ∈ net.edges, 0 ≤ e.cost)
    {c : String} (hcU : c ∈ U)
    (hmin : ∀ v ∈ U, dist c ≤ dist v) (hcfin : dist c ≠ ⊤) :
    LoopInv net s (U.erase c) (L ++ [c])
      (relaxAll net.edges c (U.erase c) (dist, prev)).1
      (relaxAll net.edges c (U.erase c) (dist, prev)).2 := by
  have hmemU' : ∀ v, v ∈ U.erase c ↔ (v ≠ c ∧ v ∈ U) :=
    fun v => inv.hUnodup.mem_erase_iff
  have hcU' : c ∉ U.erase c := fun h => ((hmemU' c).mp h).1 rfl
  have hUsub : ∀ v ∈ U.erase c, v ∈ U := fun v hv => ((hmemU' v).mp hv).2
  have hC : (relaxAll net.edges c (U.erase c) (dist, prev)).1 c = dist c :=
    relaxAll_fst_c hcU' net.edges (dist, prev)
  have hNM : ∀ {v : String}, v ∉ U.erase c →
      (relaxAll net.edges c (U.erase c) (dist, prev)).1 v = dist v ∧
      (relaxAll net.edges c (U.erase c) (dist, prev)).2 v = prev v :=
    fun {v} hv => relaxAll_not_mem hv net.edges (dist, prev)
  have hLE : ∀ v, (relaxAll net.edges c (U.erase c) (dist, prev)).1 v ≤ dist v :=
    fun v => relaxAll_le v net.edges (dist, prev)
  have hCS : ∀ v,
      ((relaxAll net.edges c (U.erase c) (dist, prev)).1 v = dist v ∧
        (relaxAll net.edges c (U.erase c) (dist, prev)).2 v = prev v) ∨
      (v ∈ U.erase c ∧ ∃ e ∈ net.edges, joins e c v ∧
        (relaxAll net.edges c (U.erase c) (dist, prev)).1 v =
          dist c + (e.cost : WithTop Int) ∧
        (relaxAll net.edges c (U.erase c) (dist, prev)).1 v < dist v ∧
        (relaxAll net.edges c (U.erase c) (dist, prev)).2 v = some (some c)) :=
    fun v => relaxAll_cases hcU' v net.edges (dist, prev)
  have hBD : ∀ {v : String}, v ∈ U.erase c → ∀ e ∈ net.edges, joins e c v →
      (relaxAll net.edges c (U.erase c) (dist, prev)).1 v ≤
        dist c + (e.cost : WithTop Int) :=
    fun {v} hv e he hj => relaxAll_bound hcU' hv net.edges (dist, prev) e he hj
  have hLmemU : ∀ w ∈ L, w ∉ U := fun w hw hwU => ((inv.hids w).mp hwU).2 hw
  have hLunch : ∀ w ∈ L,
      (relaxAll net.edges c (U.erase c) (dist, prev)).1 w = dist w ∧
      (relaxAll net.edges c (U.erase c) (dist, prev)).2 w = prev w :=
    fun w hw => hNM (fun hwU' => hLmemU w hw (hUsub _ hwU'))
  have hcmem : c ∈ net.nodeIds := ((inv.hids c).mp hcU).1
  have hcnotL : c ∉ L := ((inv.hids c).mp hcU).2
  have hcostnn : ∀ e ∈ net.edges, (0 : WithTop Int) ≤ (e.cost : WithTop Int) := by
    intro e he
    exact_mod_cast hedge e he
  have hsunch :
      (relaxAll net.edges c (U.erase c) (dist, prev)).1 s = dist s ∧
      (relaxAll net.edges c (U.erase c) (dist, prev)).2 s = prev s := by
    rcases hCS s with h | ⟨hsU, e, he, hj, heq, hlt, hp⟩
    · exact h
    · exfalso
      have h0 : (0 : WithTop Int) ≤
          (relaxAll net.edges c (U.erase c) (dist, prev)).1 s := by
        rw [heq]
        exact add_nonneg (inv.hnonneg c) (hcostnn e he)
      rw [inv.hsrc] at hlt
      exact absurd (lt_of_le_of_lt h0 hlt) (lt_irrefl 0)
  refine ⟨?_, ?_, ?_, ?_, ?_, ?_, ?_, ?_, ?_, ?_, ?_, ?_, ?_, ?_, ?_, ?_⟩
  · -- hids
    intro x
    rw [hmemU' x, inv.hids x]
    simp only [List.mem_append, List.mem_singleton]
    constructor
    · rintro ⟨hxc, hxids, hxL⟩
      exact ⟨hxids, by rintro (h | h) <;> [exact hxL h; exact hxc h]⟩
    · rintro ⟨hxids, hnot⟩
      exact ⟨fun h => hnot (Or.inr h), hxids, fun h => hnot (Or.inl h)⟩
  · -- hLsub
    intro x hx
    rcases List.mem_append.mp hx with h | h
    · exact inv.hLsub x h
    · rw [List.mem_singleton] at h
      subst h
      exact hcmem
  · exact inv.hUnodup.erase c
  · -- hLnodup
    rw [List.nodup_append]
    refine ⟨inv.hLnodup, List.nodup_singleton c, ?_⟩
    intro x hxL hxc
    rw [List.mem_singleton] at hxc
    subst hxc
    exact hcnotL hxL
  · -- hsrc
    rw [hsunch.1, inv.hsrc]
  · -- hnonneg
    intro v
    rcases hCS v with ⟨h1, h2⟩ | ⟨hvU, e, he, hj, heq, hlt, hp⟩
    · rw [h1]
      exact inv.hnonneg v
    · rw [heq]
      exact add_nonneg (inv.hnonneg c) (hcostnn e he)
  · -- hmono
    intro w hw v hv
    have hDw : (relaxAll net.edges c (U.erase c) (dist, prev)).1 w = dist w := by
      rcases List.mem_append.mp hw with h | h
      · exact (hLunch w h).1
      · rw [List.mem_singleton] at h
        subst h
        exact hC
    rw [hDw]
    have hbase : dist w ≤ dist c := by
      rcases List.mem_append.mp hw with h | h
      · exact inv.hmono w h c hcU
      · rw [List.mem_singleton] at h
        subst h
        exact le_rfl
    rcases hCS v with ⟨h1, h2⟩ | ⟨hvU, e, he, hj, heq, hlt, hp⟩
    · rw [h1]
      rcases List.mem_append.mp hw with h | h
      · exact inv.hmono w h v (hUsub v hv)
      · rw [List.mem_singleton] at h
        subst h
        exact hmin v (hUsub v hv)
    · rw [heq]
      exact hbase.trans (le_add_of_nonneg_right (hcostnn e he))
  · -- hfront
    intro w hw v hvids e he hj
    rcases List.mem_append.mp hw with hwL | hwc
    · have h1 := (hLunch w hwL).1
      rw [h1]
      exact (hLE v).trans (inv.hfront w hwL v hvids e he hj)
    · rw [List.mem_singleton] at hwc
      rw [hwc] at hj ⊢
      rw [hC]
      by_cases hvU' : v ∈ U.erase c
      · exact hBD hvU' e he hj
      · have h1 := (hNM hvU').1
        rw [h1]
        by_cases hvL : v ∈ L
        · exact (inv.hmono v hvL c hcU).trans
            (le_add_of_nonneg_right (hcostnn e he))
        · by_cases hvU : v ∈ U
          · have : v = c := by
              by_contra hvc
              exact hvU' ((hmemU' v).mpr ⟨hvc, hvU⟩)
            subst this
            exact le_add_of_nonneg_right (hcostnn e he)
          · exact absurd ((inv.hids v).mpr ⟨hvids, hvL⟩) hvU
  · -- hach
    intro v cv heqv
    rcases hCS v with ⟨h1, h2⟩ | ⟨hvU, e, he, hj, heq, hlt, hp⟩
    · rw [h1] at heqv
      exact inv.hach v cv heqv
    · rw [heq] at heqv
      obtain ⟨dc, hdc⟩ := WithTop.ne_top_iff_exists.mp hcfin
      rw [← hdc, ← WithTop.coe_add] at heqv
      have hcv : dc + e.cost = cv := by exact_mod_cast heqv
      have hwalk : Walk net s c dc := inv.hach c dc hdc.symm
      have hvids : v ∈ net.nodeIds := ((inv.hids v).mp (hUsub v hvU)).1
      have := hwalk.snoc he hj hvids
      rwa [hcv] at this
  · -- hout
    intro v hvnids
    have hvU : v ∉ U := fun h => hvnids ((inv.hids v).mp h).1
    have hvU' : v ∉ U.erase c := fun h => hvU (hUsub v h)
    obtain ⟨h1, h2⟩ := hNM hvU'
    rw [h1, h2]
    exact inv.hout v hvnids
  · -- hdom
    intro v hvids
    rcases hCS v with ⟨h1, h2⟩ | ⟨hvU, e, he, hj, heq, hlt, hp⟩
    · rw [h2]
      exact inv.hdom v hvids
    · rw [hp]
      simp
  · -- hnullinf
    intro v hvids hvs hPn
    rcases hCS v with ⟨h1, h2⟩ | ⟨hvU, e, he, hj, heq, hlt, hp⟩
    · rw [h2] at hPn
      rw [h1]
      exact inv.hnullinf v hvids hvs hPn
    · rw [hp] at hPn
      exact absurd hPn (by simp)
  · -- hprevsrc
    rw [hsunch.2, inv.hprevsrc]
  · -- hprevlink
    intro v p hP'
    rcases hCS v with ⟨h1, h2⟩ | ⟨hvU, e, he, hj, heq, hlt, hp⟩
    · rw [h2] at hP'
      obtain ⟨hpL, e, he, hj, heqd⟩ := inv.hprevlink v p hP'
      refine ⟨List.mem_append_left _ hpL, e, he, hj, ?_⟩
      rw [h1, (hLunch p hpL).1]
      exact heqd
    · rw [hp] at hP'
      have hcp : c = p := Option.some.inj (Option.some.inj hP')
      refine ⟨?_, e, he, ?_, ?_⟩
      · rw [← hcp]
        exact List.mem_append_right _ (List.mem_singleton_self c)
      · rw [← hcp]
        exact hj
      · rw [← hcp, heq, hC]
  · -- hrank
    intro v p hP' hvL'
    rcases List.mem_append.mp hvL' with hvL | hvc
    · have hvU : v ∉ U := hLmemU v hvL
      have hvU' : v ∉ U.erase c := fun h => hvU (hUsub v h)
      obtain ⟨h1, h2⟩ := hNM hvU'
      rw [h2] at hP'
      have hrk := inv.hrank v p hP' hvL
      have hpL : p ∈ L := (inv.hprevlink v p hP').1
      rw [List.indexOf_append_of_mem hpL, List.indexOf_append_of_mem hvL]
      exact hrk
    · rw [List.mem_singleton] at hvc
      rw [hvc] at hP'
      obtain ⟨h1, h2⟩ := hNM hcU'
      rw [h2] at hP'
      have hpL : p ∈ L := (inv.hprevlink c p hP').1
      rw [hvc, List.indexOf_append_of_mem hpL, List.indexOf_append_of_not_mem hcnotL]
      have := List.indexOf_lt_length.mpr hpL
      simp only [List.indexOf_cons_self]
      omega
  · -- hLfin
    intro w hw
    rcases List.mem_append.mp hw with h | h
    · rw [(hLunch w h).1]
      exact inv.hLfin w h
    · rw [List.mem_singleton] at h
      rw [h, hC]
      exact hcfin

/-! ## The main loop reaches the destination with an optimal distance -/

theorem dk_loop {net : Network} {s d : String}
    (hedge : ∀ e ∈ net.edges, 0 ≤ e.cost)
    (hne : ∀ x ∈ net.nodeIds, x ≠ "") :
    ∀ (fuel : Nat) (U L : List String) (dist : String → WithTop Int)
      (prev : String → Option (Option String)),
      fuel = U.length →
      LoopInv net s U L dist prev →
      d ∈ U →
      (∃ c : Int, Walk net s d c) →
      ∃ U' L' dist' prev',
        dijkstraLoop net d fuel U (dist, prev) = (dist', prev') ∧
        LoopInv net s U' L' dist' prev' ∧ d ∈ U' ∧
        dist' d ≠ ⊤ ∧
        (∀ c : Int, Walk net s d c → dist' d ≤ (c : WithTop Int)) := by
  intro fuel
  induction fuel with
  | zero =>
    intro U L dist prev hfuel inv hdU hreach
    rw [eq_comm, List.length_eq_zero] at hfuel
    rw [hfuel] at hdU
    exact absurd hdU (List.not_mem_nil d)
  | succ n ih =>
    intro U L dist prev hfuel inv hdU hreach
    have hUne : U ≠ [] := by
      intro h
      rw [h] at hdU
      exact List.not_mem_nil d hdU
    have hUempty : U.isEmpty = false := by
      cases U with
      | nil => exact absurd rfl hUne
      | cons a l => rfl
    have hsfin : s ∈ L ∨ (s ∈ U ∧ dist s ≠ ⊤) := by
      obtain ⟨c0, w0⟩ := hreach
      have hsids : s ∈ net.nodeIds := w0.mem_left
      by_cases hsL : s ∈ L
      · exact Or.inl hsL
      · refine Or.inr ⟨(inv.hids s).mpr ⟨hsids, hsL⟩, ?_⟩
        rw [inv.hsrc]
        simp
    rcases hscan : scanMin U dist with ⟨r1, r2⟩
    cases r1 with
    | none =>
      exfalso
      obtain ⟨c0, w0⟩ := hreach
      obtain ⟨x, hxU, hxfin⟩ := dk_exists_finite inv s d c0 w0 hdU hsfin
      exact hxfin (scanMin_none hscan x hxU)
    | some c =>
      obtain ⟨hm, hcU, hmt, hminU, -⟩ := scanMin_some hscan
      have hcids : c ∈ net.nodeIds := ((inv.hids c).mp hcU).1
      have hcne : c ≠ "" := hne c hcids
      have hcfin : dist c ≠ ⊤ := hm ▸ hmt
      have hmind : ∀ v ∈ U, dist c ≤ dist v := by
        intro v hv
        have := hminU v hv
        rwa [hm] at this
      by_cases hcd : c = d
      · refine ⟨U, L, dist, prev, ?_, inv, hdU, ?_, ?_⟩
        · rw [dijkstraLoop, hUempty, hscan]
          simp [hcne, hmt, hcd]
        · rw [← hcd]
          exact hcfin
        · intro cw w
          have hsel := dk_selection inv hedge s d cw w hdU (by
            intro x hx
            rw [← hcd]
            exact hmind x hx)
          rwa [inv.hsrc, zero_add] at hsel
      · have hstep := dk_step inv hedge hcU hmind hcfin
        have hfuel' : n = (U.erase c).length := by
          have := List.length_erase_of_mem hcU
          omega
        have hdU' : d ∈ U.erase c :=
          inv.hUnodup.mem_erase_iff.mpr ⟨fun h => hcd h.symm, hdU⟩
        obtain ⟨U', L', dist', prev', hrun, inv', hdU'', hfin', hmin'⟩ :=
          ih (U.erase c) (L ++ [c])
            (relaxAll net.edges c (U.erase c) (dist, prev)).1
            (relaxAll net.edges c (U.erase c) (dist, prev)).2
            hfuel' hstep hdU' hreach
        refine ⟨U', L', dist', prev', ?_, inv', hdU'', hfin', hmin'⟩
        rw [dijkstraLoop, hUempty, hscan]
        simp only [hcne, hmt, hcd, if_false, if_true, reduceIte, Bool.false_eq_true]
        exact hrun

/-! ## Reconstruction follows the previous-chain back to the source -/

theorem joins_same_pair {e1 e0 : NetworkEdge} {q p : String}
    (h1 : joins e1 q p) (h0 : joins e0 q p) :
    (e1.«from» = e0.«from» ∧ e1.«to» = e0.«to») ∨
    (e1.«from» = e0.«to» ∧ e1.«to» = e0.«from») := by
  rcases h1 with ⟨a1, b1⟩ | ⟨a1, b1⟩ <;> rcases h0 with ⟨a0, b0⟩ | ⟨a0, b0⟩
  · exact Or.inl ⟨a1.trans a0.symm, b1.trans b0.symm⟩
  · exact Or.inr ⟨a1.trans b0.symm, b1.trans a0.symm⟩
  · exact Or.inr ⟨a1.trans b0.symm, b1.trans a0.symm⟩
  · exact Or.inl ⟨a1.trans a0.symm, b1.trans b0.symm⟩

theorem dk_reconstruct {net : Network} {s : String} {U' L' : List String}
    {dist : String → WithTop Int} {prev : String → Option (Option String)}
    (inv : LoopInv net s U' L' dist prev)
    (hpar : ∀ e₁ ∈ net.edges, ∀ e₂ ∈ net.edges,
      ((e₁.«from» = e₂.«from» ∧ e₁.«to» = e₂.«to») ∨
       (e₁.«from» = e₂.«to» ∧ e₁.«to» = e₂.«from»)) → e₁.cost = e₂.cost) :
    ∀ (k : Nat) (p : String), p ∈ L' → L'.indexOf p < k →
      ∀ (fuel : Nat) (acc : List PathSegment), k ≤ fuel →
        ∃ (segs : List PathSegment) (cp : Int),
          reconstruct net prev fuel (some p) acc = some (segs ++ acc) ∧
          SegsChain s segs p ∧
          (∀ g ∈ segs, g.edge ∈ net.edges ∧ joins g.edge g.«from».id g.«to».id ∧
            g.«from» ∈ net.nodes ∧ g.«to» ∈ net.nodes) ∧
          dist p = ((cp : Int) : WithTop Int) ∧
          (segs.map (fun g => g.edge.cost)).sum = cp := by
  intro k
  induction k with
  | zero =>
    intro p hpL hpk
    exact absurd hpk (by omega)
  | succ k ih =>
    intro p hpL hpk fuel acc hkf
    have hpids : p ∈ net.nodeIds := inv.hLsub p hpL
    obtain ⟨f, rfl⟩ : ∃ f, fuel = f + 1 := ⟨fuel - 1, by omega⟩
    rcases hp : prev p with _ | op
    · exact absurd hp (inv.hdom p hpids)
    rcases hop : op with _ | q
    · -- previous is null: p must be the source
      subst hop
      have hps : p = s := by
        by_contra hps
        exact (inv.hLfin p hpL) (inv.hnullinf p hpids hps hp)
      refine ⟨[], 0, ?_, hps.symm, by simp, ?_, by simp⟩
      · rw [reconstruct, hp]
        simp
      · rw [hps, inv.hsrc]
        simp
    · -- previous stores q: one hop back
      subst hop
      obtain ⟨hqL, e0, he0, hj0, heq0⟩ := inv.hprevlink p q hp
      have hrk := inv.hrank p q hp hpL
      obtain ⟨e1, hfind, he1, hj1⟩ := findEdgeBetween_exists he0 hj0
      have hcost : e1.cost = e0.cost :=
        hpar e1 he1 e0 he0 (joins_same_pair hj1 hj0)
      have hqids : q ∈ net.nodeIds := inv.hLsub q hqL
      obtain ⟨hqid, hqmem⟩ := findNodeById_spec hqids
      obtain ⟨hpid, hpmem⟩ := findNodeById_spec hpids
      have hstepEq : reconstruct net prev (f + 1) (some p) acc =
          reconstruct net prev f (some q)
            (⟨findNodeById net.nodes q, findNodeById net.nodes p, e1⟩ :: acc) := by
        rw [reconstruct, hp]
        simp only [hfind]
      obtain ⟨segs', cq, hrec, hchain, hprops, hdq, hsum⟩ :=
        ih q hqL (by omega) f
          (⟨findNodeById net.nodes q, findNodeById net.nodes p, e1⟩ :: acc)
          (by omega)
      refine ⟨segs' ++ [⟨findNodeById net.nodes q, findNodeById net.nodes p, e1⟩],
        cq + e0.cost, ?_, ?_, ?_, ?_, ?_⟩
      · rw [hstepEq, hrec]
        simp [List.append_assoc]
      · have := SegsChain_append_single segs' hchain
          ⟨findNodeById net.nodes q, findNodeById net.nodes p, e1⟩ hqid
        simpa [hpid] using this
      · intro g hg
        rcases List.mem_append.mp hg with h | h
        · exact hprops g h
        · rw [List.mem_singleton] at h
          subst h
          refine ⟨he1, ?_, hqmem, hpmem⟩
          simp only [hqid, hpid]
          exact hj1
      · rw [heq0, hdq, ← WithTop.coe_add]
      · simp only [List.map_append, List.sum_append, hsum]
        simp [hcost]

/-- C1 (amended): for every graph with non-negative integer edge costs,
pairwise distinct node ids none of which is the empty string, and in which
any two edges joining the same unordered pair of ids carry the same cost,
and for every distinct sourceId and destId present in the graph with destId
reachable from sourceId (edges traversable in either direction), dijkstra
returns a non-empty segment sequence chaining from the source node to the
destination node over actual edges of the graph, whose total cost is
achieved by a walk from source to destination and is a lower bound on the
cost of every walk (hence of every path) from source to destination. -/
theorem claim_C1_dijkstra_correct {net : Network} {sourceId destId : String}
    (hnodup : net.nodeIds.Nodup)
    (hne : ∀ x ∈ net.nodeIds, x ≠ "")
    (hedge : ∀ e ∈ net.edges, 0 ≤ e.cost)
    (hpar : ∀ e₁ ∈ net.edges, ∀ e₂ ∈ net.edges,
      ((e₁.«from» = e₂.«from» ∧ e₁.«to» = e₂.«to») ∨
       (e₁.«from» = e₂.«to» ∧ e₁.«to» = e₂.«from»)) → e₁.cost = e₂.cost)
    (hs : sourceId ∈ net.nodeIds) (hd : destId ∈ net.nodeIds)
    (hsd : sourceId ≠ destId)
    (hreach : ∃ c : Int, Walk net sourceId destId c) :
    ∃ segs : List PathSegment,
      dijkstra net sourceId destId = some segs ∧
      segs ≠ [] ∧
      SegsChain sourceId segs destId ∧
      (∀ g ∈ segs, g.edge ∈ net.edges ∧ joins g.edge g.«from».id g.«to».id ∧
        g.«from» ∈ net.nodes ∧ g.«to» ∈ net.nodes) ∧
      Walk net sourceId destId (segsCost segs) ∧
      (∀ c : Int, Walk net sourceId destId c → segsCost segs ≤ c) := by
  have hU0 : initUnvisited net = net.nodeIds := initUnvisited_eq_nodeIds hnodup
  obtain ⟨U', L', dist', prev', hrun, inv', hdU', hdfin, hmin⟩ :=
    dk_loop hedge hne net.nodeIds.length net.nodeIds [] (initDist net sourceId)
      (initPrev net) rfl (dk_init hnodup hs) hd hreach
  have hdij : dijkstra net sourceId destId =
      reconstruct net prev' (net.nodes.length + 1) (some destId) [] := by
    simp only [dijkstra, dijkstraWithFuel, hU0, hrun]
  rcases hpd : prev' destId with _ | opd
  · exact absurd hpd (inv'.hdom destId hd)
  rcases hopd : opd with _ | q
  · subst hopd
    exact absurd (inv'.hnullinf destId hd hsd.symm hpd) hdfin
  subst hopd
  obtain ⟨hqL, e0, he0, hj0, heq0⟩ := inv'.hprevlink destId q hpd
  obtain ⟨e1, hfindd, he1, hj1⟩ := findEdgeBetween_exists he0 hj0
  have hcost : e1.cost = e0.cost := hpar e1 he1 e0 he0 (joins_same_pair hj1 hj0)
  have hqids : q ∈ net.nodeIds := inv'.hLsub q hqL
  obtain ⟨hqid, hqmem⟩ := findNodeById_spec hqids
  obtain ⟨hdid, hdmem⟩ := findNodeById_spec hd
  have hstepEq : reconstruct net prev' (net.nodes.length + 1) (some destId) [] =
      reconstruct net prev' net.nodes.length (some q)
        [⟨findNodeById net.nodes q, findNodeById net.nodes destId, e1⟩] := by
    rw [reconstruct, hpd]
    simp only [hfindd]
  have hLlen : L'.length ≤ net.nodes.length := by
    have h1 : L'.length ≤ net.nodeIds.length :=
      nodup_subset_length inv'.hLnodup (fun x hx => inv'.hLsub x hx)
    simpa [Network.nodeIds] using h1
  obtain ⟨segs', cq, hrec, hchain, hprops, hdq, hsum⟩ :=
    dk_reconstruct inv' hpar L'.length q hqL (List.indexOf_lt_length.mpr hqL)
      net.nodes.length [⟨findNodeById net.nodes q, findNodeById net.nodes destId, e1⟩]
      hLlen
  have hcostEq : segsCost
      (segs' ++ [⟨findNodeById net.nodes q, findNodeById net.nodes destId, e1⟩]) =
      cq + e0.cost := by
    rw [segsCost_eq_sum]
    simp only [List.map_append, List.sum_append, hsum]
    simp [hcost]
  have hdistEq : dist' destId = ((cq + e0.cost : Int) : WithTop Int) := by
    rw [heq0, hdq, ← WithTop.coe_add]
  refine ⟨segs' ++ [⟨findNodeById net.nodes q, findNodeById net.nodes destId, e1⟩],
    ?_, ?_, ?_, ?_, ?_, ?_⟩
  · rw [hdij, hstepEq, hrec]
  · simp
  · have := SegsChain_append_single segs' hchain
      ⟨findNodeById net.nodes q, findNodeById net.nodes destId, e1⟩ hqid
    simpa [hdid] using this
  · intro g hg
    rcases List.mem_append.mp hg with h | h
    · exact hprops g h
    · rw [List.mem_singleton] at h
      subst h
      refine ⟨he1, ?_, hqmem, hdmem⟩
      simp only [hqid, hdid]
      exact hj1
  · rw [hcostEq]
    exact inv'.hach destId (cq + e0.cost) hdistEq
  · intro c hw
    have h1 := hmin c hw
    rw [hdistEq] at h1
    rw [hcostEq]
    exact_mod_cast h1

/-- Witness for C1 (amended): the default network satisfies every hypothesis,
A and F are distinct present nodes, and F is reachable from A. -/
theorem claim_C1_witness :
    ∃ segs : List PathSegment,
      dijkstra getDefaultNetwork "A" "F" = some segs ∧
      segs ≠ [] ∧
      SegsChain "A" segs "F" ∧
      (∀ g ∈ segs, g.edge ∈ getDefaultNetwork.edges ∧
        joins g.edge g.«from».id g.«to».id ∧
        g.«from» ∈ getDefaultNetwork.nodes ∧ g.«to» ∈ getDefaultNetwork.nodes) ∧
      Walk getDefaultNetwork "A" "F" (segsCost segs) ∧
      (∀ c : Int, Walk getDefaultNetwork "A" "F" c → segsCost segs ≤ c) :=
  claim_C1_dijkstra_correct (by decide) (by decide) (by decide) (by decide)
    (by decide) (by decide) (by decide)
    ⟨9 + (2 + (7 + 0)),
      Walk.cons "A" "C" "F" (2 + (7 + 0)) ⟨"A", "C", 9⟩ (by decide) (by decide)
        (Or.inl ⟨rfl, rfl⟩)
        (Walk.cons "C" "E" "F" (7 + 0) ⟨"C", "E", 2⟩ (by decide) (by decide)
          (Or.inl ⟨rfl, rfl⟩)
          (Walk.cons "E" "F" "F" 0 ⟨"E", "F", 7⟩ (by decide) (by decide)
            (Or.inl ⟨rfl, rfl⟩)
            (Walk.nil "F" (by decide))))⟩
